import Mathlib

/-!
# VirusGenealogy (src/virus_genealogy.h)

A shallow embedding of the class template `VirusGenealogy<Virus>`.

Modelling decisions.

* `Virus::id_type` is a type `Id` with decidable equality.
* A `Virus` object is known by the id it was constructed from.  Every id has at
  most one `Virus` object during the life of a genealogy (a node is made once,
  by the constructor or by `create`, and no defined member erases it), so a
  `std::shared_ptr<Virus>` is modelled by the `Virus` it points to.
* `std::set<std::shared_ptr<Virus>>` orders its elements by the address of the
  pointee.  Addresses are not chosen by the program, so the address order is a
  parameter `addr_lt` of every operation that inserts into such a set; a set is
  the list of its elements in iteration order.
* `std::map<id_type, std::shared_ptr<VirusNode>>` is an association list;
  the code only uses `find` and `insert` on it and never iterates over it.
  `map_find` returns the first entry with the key and `map_modify` writes
  through the reference to that same entry.  New keys are appended.
* A member function that can throw returns an `Outcome`: the exception thrown
  (if any) together with the genealogy as it is when control leaves the
  function.
-/

namespace VG

/-! ## Exceptions (lines 6-14) -/

/-- The two exception classes of the header. -/
inductive Exception where
  | VirusNotFound
  | VirusAlreadyCreated
deriving DecidableEq, Repr

/-! ## Containers -/

/-- The place of a new element in a `std::set` kept in iteration order: before
the first element that is greater. -/
def ordered_insert {α : Type} (lt : α → α → Bool) (x : α) : List α → List α
  | [] => [x]
  | y :: ys => if lt x y then x :: y :: ys else y :: ordered_insert lt x ys

/-- Insertion into a `std::set`: an element equal to `x` blocks the insertion,
otherwise `x` is put at its place in the order. -/
def set_insert {α : Type} [DecidableEq α] (lt : α → α → Bool) (x : α) (l : List α) : List α :=
  if x ∈ l then l else ordered_insert lt x l

/-- Lookup in a `std::map`: `nodes.find(k)`; `none` stands for `nodes.end()`. -/
def map_find {κ β : Type} [DecidableEq κ] (k : κ) : List (κ × β) → Option β
  | [] => none
  | (k', v) :: m => if k = k' then some v else map_find k m

/-- Insertion `nodes.insert({k, v})`: returns the map and the value stored
under `k` afterwards (the `.first->second` of the call); an existing entry is
kept. -/
def map_insert {κ β : Type} [DecidableEq κ] (k : κ) (v : β) (m : List (κ × β)) :
    List (κ × β) × β :=
  match map_find k m with
  | some v' => (m, v')
  | none => (m ++ [(k, v)], v)

/-- A write through a reference to the value stored under `k`. -/
def map_modify {κ β : Type} [DecidableEq κ] (k : κ) (f : β → β) : List (κ × β) → List (κ × β)
  | [] => []
  | (k', v) :: m => if k = k' then (k', f v) :: m else (k', v) :: map_modify k f m

/-! ## Data model (lines 16-32) -/

/-- The template parameter `Virus`: built from an id, which `get_id` reports. -/
structure Virus (Id : Type) where
  get_id : Id
deriving DecidableEq, Repr

/-- The private struct `VirusNode` (lines 20-26). -/
structure VirusNode (Id : Type) where
  ptr : Virus Id
  childs : List (Virus Id)
  parents : List (Virus Id)
deriving DecidableEq, Repr

/-- The constructor `VirusNode(id)` (line 25): a fresh `Virus`, two empty sets. -/
def VirusNode.init {Id : Type} (id : Id) : VirusNode Id :=
  { ptr := Virus.mk id, childs := [], parents := [] }

/-- The statement `node.childs.insert(p)`. -/
def VirusNode.insert_child {Id : Type} [DecidableEq Id] (addr_lt : Virus Id → Virus Id → Bool)
    (p : Virus Id) (node : VirusNode Id) : VirusNode Id :=
  { node with childs := set_insert addr_lt p node.childs }

/-- The statement `node.parents.insert(p)`. -/
def VirusNode.insert_parent {Id : Type} [DecidableEq Id] (addr_lt : Virus Id → Virus Id → Bool)
    (p : Virus Id) (node : VirusNode Id) : VirusNode Id :=
  { node with parents := set_insert addr_lt p node.parents }

/-- The data members of `VirusGenealogy` (lines 28-32). -/
structure VirusGenealogy (Id : Type) where
  nodes : List (Id × VirusNode Id)
  stem_id : Id
deriving DecidableEq, Repr

/-- What a call that may throw leaves behind. -/
structure Outcome (Id : Type) where
  thrown : Option Exception
  graph : VirusGenealogy Id
deriving DecidableEq, Repr

section Operations

variable {Id : Type} [DecidableEq Id]

/-- The constructor (lines 38-40). -/
def VirusGenealogy.new (stem_id : Id) : VirusGenealogy Id :=
  { nodes := [(stem_id, VirusNode.init stem_id)], stem_id := stem_id }

/-- Member `get_stem_id` (line 43). -/
def VirusGenealogy.get_stem_id (g : VirusGenealogy Id) : Id :=
  g.stem_id

/-- Member `get_parents` (lines 59-68). -/
def VirusGenealogy.get_parents (g : VirusGenealogy Id) (id : Id) : Except Exception (List Id) :=
  match map_find id g.nodes with
  | none => Except.error Exception.VirusNotFound
  | some node => Except.ok (node.parents.map Virus.get_id)

/-- Member `exists` (lines 71-73). -/
def VirusGenealogy.exists (g : VirusGenealogy Id) (id : Id) : Bool :=
  (map_find id g.nodes).isSome

/-- Member `operator[]` (lines 78-83). -/
def VirusGenealogy.get (g : VirusGenealogy Id) (id : Id) : Except Exception (Virus Id) :=
  match map_find id g.nodes with
  | none => Except.error Exception.VirusNotFound
  | some node => Except.ok node.ptr

/-- The two statements `parent.childs.insert(child.ptr);
child.parents.insert(parent.ptr);` of both `create` forms (lines 102-104 and
122-124), where `child` is the node stored under `id`, `child_ptr` its `ptr`,
and `parent` the node the iterator `parent_it` refers to. -/
def add_parent (addr_lt : Virus Id → Virus Id → Bool) (id : Id) (child_ptr : Virus Id)
    (nodes : List (Id × VirusNode Id)) (parent_it : Id) : List (Id × VirusNode Id) :=
  match map_find parent_it nodes with
  | none => nodes
  | some parent =>
    let nodes1 := map_modify parent_it (VirusNode.insert_child addr_lt child_ptr) nodes
    map_modify id (VirusNode.insert_parent addr_lt parent.ptr) nodes1

/-- Member `create`, single parent (lines 92-105). -/
def VirusGenealogy.create (addr_lt : Virus Id → Virus Id → Bool) (g : VirusGenealogy Id)
    (id parent_id : Id) : Outcome Id :=
  match map_find id g.nodes with
  | some _ => { thrown := some Exception.VirusAlreadyCreated, graph := g }
  | none =>
    match map_find parent_id g.nodes with
    | none => { thrown := some Exception.VirusNotFound, graph := g }
    | some _ =>
      let ins := map_insert id (VirusNode.init id) g.nodes
      let nodes1 := add_parent addr_lt id ins.2.ptr ins.1 parent_id
      { thrown := none, graph := { g with nodes := nodes1 } }

/-- The first loop of the multi-parent `create` (lines 112-118): the iterators
found for `parent_ids`, or `none` when some `find` hits `nodes.end()` and
`VirusNotFound` is thrown. -/
def find_parents (nodes : List (Id × VirusNode Id)) : List Id → Option (List Id)
  | [] => some []
  | parent_id :: rest =>
    match map_find parent_id nodes with
    | none => none
    | some _ =>
      match find_parents nodes rest with
      | none => none
      | some parent_its => some (parent_id :: parent_its)

/-- Member `create`, list of parents (lines 107-126). -/
def VirusGenealogy.create_parents (addr_lt : Virus Id → Virus Id → Bool) (g : VirusGenealogy Id)
    (id : Id) (parent_ids : List Id) : Outcome Id :=
  match map_find id g.nodes with
  | some _ => { thrown := some Exception.VirusAlreadyCreated, graph := g }
  | none =>
    match find_parents g.nodes parent_ids with
    | none => { thrown := some Exception.VirusNotFound, graph := g }
    | some parent_its =>
      let ins := map_insert id (VirusNode.init id) g.nodes
      let nodes1 := parent_its.foldl (add_parent addr_lt id ins.2.ptr) ins.1
      { thrown := none, graph := { g with nodes := nodes1 } }

/-- Member `connect` (lines 130-139).  In the declaration
`VirusNode& child = *child_it->second, parent = *parent_it->second;` only
`child` is a reference; `parent` is a `VirusNode` object copied from the map
entry.  The insertion into `parent.childs` therefore changes the local copy
(`parent_local` below), which is dropped when the function returns; the
insertion into `child.parents` goes to the map. -/
def VirusGenealogy.connect (addr_lt : Virus Id → Virus Id → Bool) (g : VirusGenealogy Id)
    (child_id parent_id : Id) : Outcome Id :=
  match map_find child_id g.nodes, map_find parent_id g.nodes with
  | some child, some parent =>
    let parent_local : VirusNode Id := parent.insert_child addr_lt child.ptr
    let nodes1 := map_modify child_id (VirusNode.insert_parent addr_lt parent_local.ptr) g.nodes
    { thrown := none, graph := { g with nodes := nodes1 } }
  | _, _ => { thrown := some Exception.VirusAlreadyCreated, graph := g }

/-! ## Sequences of calls -/

/-- A mutating call of the public interface. -/
inductive Call (Id : Type) where
  | create (id parent_id : Id)
  | create_parents (id : Id) (parent_ids : List Id)
  | connect (child_id parent_id : Id)
deriving DecidableEq, Repr

/-- One call on a genealogy. -/
def Call.apply (addr_lt : Virus Id → Virus Id → Bool) (g : VirusGenealogy Id) :
    Call Id → Outcome Id
  | Call.create id parent_id => g.create addr_lt id parent_id
  | Call.create_parents id parent_ids => g.create_parents addr_lt id parent_ids
  | Call.connect child_id parent_id => g.connect addr_lt child_id parent_id

/-- The genealogy after a sequence of calls; a call that throws is caught by
the caller and the sequence goes on with the genealogy it left. -/
def run (addr_lt : Virus Id → Virus Id → Bool) (g : VirusGenealogy Id) :
    List (Call Id) → VirusGenealogy Id
  | [] => g
  | c :: cs => run addr_lt (c.apply addr_lt g).graph cs

/-! ## Observations used by the statements -/

/-- The ids in the child set of the node `a` (empty when `a` is absent). -/
def VirusGenealogy.child_ids (g : VirusGenealogy Id) (a : Id) : List Id :=
  match map_find a g.nodes with
  | none => []
  | some node => node.childs.map Virus.get_id

/-- The ids in the parent set of the node `a` (empty when `a` is absent). -/
def VirusGenealogy.parent_ids (g : VirusGenealogy Id) (a : Id) : List Id :=
  match map_find a g.nodes with
  | none => []
  | some node => node.parents.map Virus.get_id

/-- The child edge `a → b`: `b` is in the child set of `a`. -/
def VirusGenealogy.child_edge (g : VirusGenealogy Id) (a b : Id) : Prop :=
  b ∈ g.child_ids a

end Operations

/-! ## Removal (line 145: declared, no body in the header) -/

/-- The error kinds the specification gives for `remove`. -/
inductive RemoveError where
  | NotFound
  | ForbiddenRemoval
deriving DecidableEq, Repr

/-- What a `remove` call leaves behind: the error kind, if it failed, and the
genealogy. -/
structure RemoveOutcome (Id : Type) where
  failed : Option RemoveError
  graph : VirusGenealogy Id
deriving DecidableEq, Repr

/-- Erasure `nodes.erase(k)` from a `std::map`. -/
def map_erase {κ β : Type} [DecidableEq κ] (k : κ) : List (κ × β) → List (κ × β)
  | [] => []
  | (k', v) :: m => if k = k' then m else (k', v) :: map_erase k m

/-- A node with the id `id` taken out of its child set and its parent set. -/
def VirusNode.forget {Id : Type} [DecidableEq Id] (id : Id) (node : VirusNode Id) :
    VirusNode Id :=
  { node with
    childs := node.childs.filter (fun v => decide (v.get_id ≠ id)),
    parents := node.parents.filter (fun v => decide (v.get_id ≠ id)) }

/-- Modelled from the spec: the member `remove`, which the header declares on
line 145 without a body.  After section 4.1 of the specification: it fails with
`NotFound` if `id` is absent, fails with `ForbiddenRemoval` if `id` equals the
stem id, and otherwise deletes the node with that id and removes the id from
the parent set and the child set of every other node; a child left without
parents stays in the genealogy.  A failing call leaves the genealogy as it
was. -/
def VirusGenealogy.remove {Id : Type} [DecidableEq Id] (g : VirusGenealogy Id) (id : Id) :
    RemoveOutcome Id :=
  match map_find id g.nodes with
  | none => { failed := some RemoveError.NotFound, graph := g }
  | some _ =>
    if id = g.stem_id then { failed := some RemoveError.ForbiddenRemoval, graph := g }
    else
      let nodes1 := (map_erase id g.nodes).map (fun e => (e.1, e.2.forget id))
      { failed := none, graph := { g with nodes := nodes1 } }

/-- An address order for genealogies over `Nat`: objects lie in id order. -/
def addr_by_id (a b : Virus Nat) : Bool :=
  decide (a.get_id < b.get_id)

/-- The opposite layout: objects lie in reverse id order. -/
def addr_by_id_rev (a b : Virus Nat) : Bool :=
  decide (b.get_id < a.get_id)

/-! ## Example genealogies over `Nat` (stem 0) -/

/-- After `create(1, 0)`. -/
def g_chain : VirusGenealogy Nat :=
  run addr_by_id (VirusGenealogy.new 0) [Call.create 1 0]

/-- After `create(1, 0); create(2, 0)`: two children of the stem. -/
def g_fork : VirusGenealogy Nat :=
  run addr_by_id (VirusGenealogy.new 0) [Call.create 1 0, Call.create 2 0]

/-- After `create(1, 0); create(2, [0, 1])`, scenario 3 of the specification. -/
def g_diamond : VirusGenealogy Nat :=
  run addr_by_id (VirusGenealogy.new 0) [Call.create 1 0, Call.create_parents 2 [0, 1]]

/-- After `create(1, 0); create(2, 0); connect(2, 1)`. -/
def g_fork_connected : VirusGenealogy Nat :=
  run addr_by_id (VirusGenealogy.new 0) [Call.create 1 0, Call.create 2 0, Call.connect 2 1]

/-- After `create(1, 0); create(2, [0, 1])` when the `Virus` objects lie in
memory in reverse id order. -/
def g_diamond_rev : VirusGenealogy Nat :=
  run addr_by_id_rev (VirusGenealogy.new 0) [Call.create 1 0, Call.create_parents 2 [0, 1]]

/-! ## The genealogies a program can hold -/

/-- A genealogy is reachable when the constructor followed by some finite
sequence of `create` and `connect` calls yields it. -/
def Reachable {Id : Type} [DecidableEq Id] (addr_lt : Virus Id → Virus Id → Bool)
    (g : VirusGenealogy Id) : Prop :=
  ∃ (s : Id) (calls : List (Call Id)), g = run addr_lt (VirusGenealogy.new s) calls

/-- Every node stored under a key holds the `Virus` built from that key. -/
def ptr_ok {Id : Type} [DecidableEq Id] (nodes : List (Id × VirusNode Id)) : Prop :=
  ∀ k n, map_find k nodes = some n → n.ptr = Virus.mk k

/-! ## Auxiliary definitions for the proofs -/

/-- How a node `n` has become `n2`: same `Virus`, the child set grown by the
elements in `C`, the parent set grown by the elements in `P`. -/
def grows {Id : Type} (n n2 : VirusNode Id) (C P : Virus Id → Prop) : Prop :=
  n2.ptr = n.ptr ∧
  (∀ c, c ∈ n2.childs ↔ c ∈ n.childs ∨ C c) ∧
  (∀ q, q ∈ n2.parents ↔ q ∈ n.parents ∨ P q) ∧
  (n.childs.Nodup → n2.childs.Nodup) ∧
  (n.parents.Nodup → n2.parents.Nodup)

section Auxiliary

variable {Id : Type} [DecidableEq Id]

/-- The `Virus` held by the node stored under `k`, if any. -/
def ptr_at (nodes : List (Id × VirusNode Id)) (k : Id) : Option (Virus Id) :=
  (map_find k nodes).map VirusNode.ptr

/-- What one edge insertion does to the node stored under `k`, where `pptr` is
the `Virus` of the parent. -/
def edge_update (addr_lt : Virus Id → Virus Id → Bool) (id p : Id) (cptr pptr : Virus Id)
    (k : Id) (n : VirusNode Id) : VirusNode Id :=
  { ptr := n.ptr,
    childs := if k = p then set_insert addr_lt cptr n.childs else n.childs,
    parents := if k = id then set_insert addr_lt pptr n.parents else n.parents }

/-- The node map a successful `create(id, parent_ids)` leaves. -/
def created_nodes (addr_lt : Virus Id → Virus Id → Bool) (nodes : List (Id × VirusNode Id))
    (id : Id) (parent_ids : List Id) : List (Id × VirusNode Id) :=
  parent_ids.foldl (add_parent addr_lt id (Virus.mk id)) (nodes ++ [(id, VirusNode.init id)])

/-- The position at which the key `k` entered the node map. -/
def rank (nodes : List (Id × VirusNode Id)) (k : Id) : Nat :=
  List.indexOf k (nodes.map Prod.fst)

/-- Every element of a child set is the `Virus` of a key that entered the map
after the key of the node holding the set. -/
def child_after (nodes : List (Id × VirusNode Id)) : Prop :=
  ∀ k n, map_find k nodes = some n → ∀ c ∈ n.childs,
    c.get_id ∈ nodes.map Prod.fst ∧ rank nodes k < rank nodes c.get_id

/-- Every element of a parent set is the `Virus` of an existing key. -/
def parents_present (nodes : List (Id × VirusNode Id)) : Prop :=
  ∀ k n, map_find k nodes = some n → ∀ q ∈ n.parents, (map_find q.get_id nodes).isSome = true

/-- Every parent set is in ascending address order. -/
def parents_sorted (addr_lt : Virus Id → Virus Id → Bool) (nodes : List (Id × VirusNode Id)) :
    Prop :=
  ∀ k n, map_find k nodes = some n → n.parents.Pairwise (fun a b => addr_lt a b = true)

end Auxiliary

/-! ## Container lemmas -/

theorem ordered_insert_perm {α : Type} (lt : α → α → Bool) (x : α) (l : List α) :
    (ordered_insert lt x l).Perm (x :: l) := by
  induction l with
  | nil => simp [ordered_insert]
  | cons y ys ih =>
    cases hlt : lt x y
    · simp only [ordered_insert, hlt, Bool.false_eq_true, if_false]
      exact (List.Perm.cons y ih).trans (List.Perm.swap x y ys)
    · simp [ordered_insert, hlt]

theorem ordered_insert_pairwise {α : Type} (lt : α → α → Bool)
    (htrans : ∀ a b c, lt a b = true → lt b c = true → lt a c = true)
    (htotal : ∀ a b, a ≠ b → lt a b = true ∨ lt b a = true)
    (x : α) (l : List α) (hx : x ∉ l) (hl : l.Pairwise (fun a b => lt a b = true)) :
    (ordered_insert lt x l).Pairwise (fun a b => lt a b = true) := by
  induction l with
  | nil => simp [ordered_insert]
  | cons y ys ih =>
    have hxy : x ≠ y := fun h => hx (h ▸ List.mem_cons_self x ys)
    have hxys : x ∉ ys := fun h => hx (List.mem_cons_of_mem y h)
    obtain ⟨hy, hys⟩ := List.pairwise_cons.mp hl
    cases hlt : lt x y
    · simp only [ordered_insert, hlt, Bool.false_eq_true, if_false]
      refine List.pairwise_cons.mpr ⟨?_, ih hxys hys⟩
      intro z hz
      rcases List.mem_cons.mp ((ordered_insert_perm lt x ys).mem_iff.mp hz) with h1 | h1
      · rcases htotal x y hxy with h2 | h2
        · rw [hlt] at h2
          cases h2
        · rw [h1]
          exact h2
      · exact hy z h1
    · simp only [ordered_insert, hlt, if_true]
      refine List.pairwise_cons.mpr ⟨?_, hl⟩
      intro z hz
      rcases List.mem_cons.mp hz with h1 | h1
      · rw [h1]
        exact hlt
      · exact htrans x y z hlt (hy z h1)

section Containers

variable {α κ β : Type} [DecidableEq α] [DecidableEq κ]

theorem mem_set_insert (lt : α → α → Bool) (x z : α) (l : List α) :
    z ∈ set_insert lt x l ↔ z = x ∨ z ∈ l := by
  unfold set_insert
  by_cases hx : x ∈ l
  · simp only [hx, if_true]
    constructor
    · exact fun h => Or.inr h
    · rintro (h | h)
      · exact h ▸ hx
      · exact h
  · simp only [hx, if_false]
    rw [(ordered_insert_perm lt x l).mem_iff, List.mem_cons]

theorem set_insert_of_mem (lt : α → α → Bool) (x : α) (l : List α) (hx : x ∈ l) :
    set_insert lt x l = l := by
  simp [set_insert, hx]

theorem set_insert_idem (lt : α → α → Bool) (x : α) (l : List α) :
    set_insert lt x (set_insert lt x l) = set_insert lt x l :=
  set_insert_of_mem lt x _ ((mem_set_insert lt x x l).mpr (Or.inl rfl))

theorem set_insert_nodup (lt : α → α → Bool) (x : α) (l : List α) (h : l.Nodup) :
    (set_insert lt x l).Nodup := by
  unfold set_insert
  by_cases hx : x ∈ l
  · simpa [hx] using h
  · simp only [hx, if_false]
    rw [(ordered_insert_perm lt x l).nodup_iff]
    exact List.nodup_cons.mpr ⟨hx, h⟩

theorem set_insert_pairwise (lt : α → α → Bool)
    (htrans : ∀ a b c, lt a b = true → lt b c = true → lt a c = true)
    (htotal : ∀ a b, a ≠ b → lt a b = true ∨ lt b a = true)
    (x : α) (l : List α) (hl : l.Pairwise (fun a b => lt a b = true)) :
    (set_insert lt x l).Pairwise (fun a b => lt a b = true) := by
  unfold set_insert
  by_cases hx : x ∈ l
  · simpa [hx] using hl
  · simp only [hx, if_false]
    exact ordered_insert_pairwise lt htrans htotal x l hx hl

theorem map_find_modify (k k' : κ) (f : β → β) (m : List (κ × β)) :
    map_find k (map_modify k' f m) =
      if k = k' then (map_find k m).map f else map_find k m := by
  induction m with
  | nil => simp [map_find, map_modify]
  | cons e m ih =>
    obtain ⟨k0, v⟩ := e
    by_cases h1 : k' = k0
    · subst h1
      by_cases h2 : k = k'
      · simp [map_find, map_modify, h2]
      · simp [map_find, map_modify, h2]
    · by_cases h2 : k = k0
      · subst h2
        have h3 : ¬ k = k' := fun h => h1 h.symm
        simp [map_find, map_modify, h1, h3]
      · simp [map_find, map_modify, h1, h2, ih]

theorem map_find_modify_some (k k' : κ) (f : β → β) (m : List (κ × β)) (v2 : β)
    (h : map_find k (map_modify k' f m) = some v2) :
    ∃ v, map_find k m = some v ∧ v2 = if k = k' then f v else v := by
  rw [map_find_modify] at h
  cases hk : map_find k m with
  | none =>
    rw [hk] at h
    by_cases hkk : k = k' <;> simp [hkk] at h
  | some v =>
    rw [hk] at h
    refine ⟨v, rfl, ?_⟩
    by_cases hkk : k = k'
    · simp only [hkk, if_true, Option.map_some', Option.some.injEq] at h
      simp [hkk, h]
    · simp only [hkk, if_false, Option.some.injEq] at h
      simp [hkk, h]

theorem map_modify_keys (k : κ) (f : β → β) (m : List (κ × β)) :
    (map_modify k f m).map Prod.fst = m.map Prod.fst := by
  induction m with
  | nil => simp [map_modify]
  | cons e m ih =>
    obtain ⟨k0, v⟩ := e
    by_cases h1 : k = k0
    · simp [map_modify, h1]
    · simp [map_modify, h1, ih]

theorem map_modify_idem (k : κ) (f : β → β) (hf : ∀ v, f (f v) = f v) (m : List (κ × β)) :
    map_modify k f (map_modify k f m) = map_modify k f m := by
  induction m with
  | nil => simp [map_modify]
  | cons e m ih =>
    obtain ⟨k0, v⟩ := e
    by_cases h1 : k = k0
    · simp [map_modify, h1, hf]
    · simp [map_modify, h1, ih]

theorem map_find_append_some (k : κ) (m r : List (κ × β)) (v : β)
    (h : map_find k m = some v) : map_find k (m ++ r) = some v := by
  induction m with
  | nil => simp [map_find] at h
  | cons e m ih =>
    obtain ⟨k0, v0⟩ := e
    by_cases h1 : k = k0
    · simpa [map_find, h1] using h
    · simp only [map_find, h1, if_false] at h
      simp [map_find, h1, ih h]

theorem map_find_append_none (k : κ) (m r : List (κ × β))
    (h : map_find k m = none) : map_find k (m ++ r) = map_find k r := by
  induction m with
  | nil => simp
  | cons e m ih =>
    obtain ⟨k0, v0⟩ := e
    by_cases h1 : k = k0
    · simp [map_find, h1] at h
    · simp only [map_find, h1, if_false] at h
      simp [map_find, h1, ih h]

theorem map_find_isSome_iff (k : κ) (m : List (κ × β)) :
    (map_find k m).isSome = true ↔ k ∈ m.map Prod.fst := by
  induction m with
  | nil => simp [map_find]
  | cons e m ih =>
    obtain ⟨k0, v0⟩ := e
    by_cases h1 : k = k0
    · simp [map_find, h1]
    · simp [map_find, h1, ih]

theorem eq_singleton_of_nodup {γ : Type} (l : List γ) (p : γ) (hn : l.Nodup)
    (hm : ∀ q, q ∈ l ↔ q ∈ [p]) : l = [p] := by
  match l, hn, hm with
  | [], _, hm => exact absurd ((hm p).mpr (List.mem_singleton_self p)) (List.not_mem_nil p)
  | [a], _, hm =>
    have ha : a = p := List.mem_singleton.mp ((hm a).mp (List.mem_singleton_self a))
    rw [ha]
  | a :: b :: t, hn, hm =>
    have ha : a = p := List.mem_singleton.mp ((hm a).mp (List.mem_cons_self a _))
    have hb : b = p :=
      List.mem_singleton.mp ((hm b).mp (List.mem_cons_of_mem a (List.mem_cons_self b t)))
    have hab : a ∉ b :: t := (List.nodup_cons.mp hn).1
    exact absurd (by rw [ha, hb]; exact List.mem_cons_self p t) hab

end Containers

/-! ## The first loop of the multi-parent `create` -/

section FindParents

variable {Id : Type} [DecidableEq Id]

theorem find_parents_of_all (nodes : List (Id × VirusNode Id)) (ps : List Id)
    (h : ∀ p ∈ ps, (map_find p nodes).isSome = true) : find_parents nodes ps = some ps := by
  induction ps with
  | nil => rfl
  | cons p ps ih =>
    have hp := h p (List.mem_cons_self p ps)
    have hps := ih (fun q hq => h q (List.mem_cons_of_mem p hq))
    obtain ⟨n, hn⟩ := Option.isSome_iff_exists.mp hp
    simp [find_parents, hn, hps]

theorem find_parents_of_absent (nodes : List (Id × VirusNode Id)) (ps : List Id)
    (h : ∃ p ∈ ps, map_find p nodes = none) : find_parents nodes ps = none := by
  induction ps with
  | nil => simp at h
  | cons p ps ih =>
    obtain ⟨q, hq, hnone⟩ := h
    cases hp : map_find p nodes with
    | none => simp [find_parents, hp]
    | some n =>
      rcases List.mem_cons.mp hq with h1 | h1
      · subst h1
        rw [hp] at hnone
        cases hnone
      · simp [find_parents, hp, ih ⟨q, h1, hnone⟩]

theorem find_parents_some (nodes : List (Id × VirusNode Id)) (ps its : List Id)
    (h : find_parents nodes ps = some its) :
    its = ps ∧ ∀ p ∈ ps, (map_find p nodes).isSome = true := by
  induction ps generalizing its with
  | nil =>
    simp only [find_parents, Option.some.injEq] at h
    simp [h.symm]
  | cons p ps ih =>
    cases hp : map_find p nodes with
    | none => simp [find_parents, hp] at h
    | some n =>
      cases hr : find_parents nodes ps with
      | none => simp [find_parents, hp, hr] at h
      | some its1 =>
        simp only [find_parents, hp, hr, Option.some.injEq] at h
        obtain ⟨h1, h2⟩ := ih its1 hr
        refine ⟨by rw [← h, h1], ?_⟩
        intro q hq
        rcases List.mem_cons.mp hq with h3 | h3
        · rw [h3, hp]
          rfl
        · exact h2 q h3

end FindParents

/-! ## The effect of one edge insertion -/

theorem grows_trans {Id : Type} (n n1 n2 : VirusNode Id) (C1 P1 C2 P2 C P : Virus Id → Prop)
    (h1 : grows n n1 C1 P1) (h2 : grows n1 n2 C2 P2)
    (hC : ∀ c, C c ↔ C1 c ∨ C2 c) (hP : ∀ q, P q ↔ P1 q ∨ P2 q) : grows n n2 C P := by
  obtain ⟨a1, b1, c1, d1, e1⟩ := h1
  obtain ⟨a2, b2, c2, d2, e2⟩ := h2
  refine ⟨a2.trans a1, ?_, ?_, fun h => d2 (d1 h), fun h => e2 (e1 h)⟩
  · intro c
    rw [b2, b1, hC, or_assoc]
  · intro q
    rw [c2, c1, hP, or_assoc]

section AddParent

variable {Id : Type} [DecidableEq Id]

theorem add_parent_keys (addr_lt : Virus Id → Virus Id → Bool) (id : Id) (cptr : Virus Id)
    (nodes : List (Id × VirusNode Id)) (p : Id) :
    (add_parent addr_lt id cptr nodes p).map Prod.fst = nodes.map Prod.fst := by
  unfold add_parent
  cases hp : map_find p nodes with
  | none => rfl
  | some pn => simp [map_modify_keys]

theorem add_parent_find (addr_lt : Virus Id → Virus Id → Bool) (id : Id) (cptr : Virus Id)
    (nodes : List (Id × VirusNode Id)) (p : Id) (pn : VirusNode Id)
    (hp : map_find p nodes = some pn) (k : Id) :
    map_find k (add_parent addr_lt id cptr nodes p) =
      (map_find k nodes).map (edge_update addr_lt id p cptr pn.ptr k) := by
  unfold add_parent
  simp only [hp, map_find_modify]
  cases hk : map_find k nodes with
  | none => simp
  | some n =>
    by_cases h1 : k = id
    · subst h1
      by_cases h2 : k = p
      · subst h2
        simp [edge_update, VirusNode.insert_parent, VirusNode.insert_child]
      · simp [edge_update, h2, VirusNode.insert_parent]
    · by_cases h2 : k = p
      · subst h2
        simp [edge_update, h1, VirusNode.insert_child]
      · simp [edge_update, h1, h2]

theorem add_parent_grows (addr_lt : Virus Id → Virus Id → Bool) (id : Id) (cptr : Virus Id)
    (nodes : List (Id × VirusNode Id)) (p k : Id) (n2 : VirusNode Id)
    (h : map_find k (add_parent addr_lt id cptr nodes p) = some n2) :
    ∃ n, map_find k nodes = some n ∧
      grows n n2 (fun c => c = cptr ∧ k = p) (fun q => k = id ∧ ptr_at nodes p = some q) := by
  cases hp : map_find p nodes with
  | none =>
    have hsame : add_parent addr_lt id cptr nodes p = nodes := by
      simp [add_parent, hp]
    rw [hsame] at h
    refine ⟨n2, h, rfl, ?_, ?_, fun x => x, fun x => x⟩
    · intro c
      constructor
      · exact fun hc => Or.inl hc
      · rintro (hc | ⟨_, hk⟩)
        · exact hc
        · rw [hk, hp] at h
          cases h
    · intro q
      constructor
      · exact fun hq => Or.inl hq
      · rintro (hq | ⟨_, hq⟩)
        · exact hq
        · simp [ptr_at, hp] at hq
  | some pn =>
    rw [add_parent_find addr_lt id cptr nodes p pn hp k] at h
    cases hk : map_find k nodes with
    | none => simp [hk] at h
    | some n =>
      refine ⟨n, rfl, ?_⟩
      rw [hk] at h
      simp only [Option.map_some', Option.some.injEq] at h
      subst h
      have hptr : ptr_at nodes p = some pn.ptr := by simp [ptr_at, hp]
      refine ⟨rfl, ?_, ?_, ?_, ?_⟩
      · intro c
        by_cases h2 : k = p
        · simp [edge_update, h2, mem_set_insert, or_comm]
        · simp [edge_update, h2]
      · intro q
        by_cases h1 : k = id
        · simp [edge_update, h1, hptr, mem_set_insert, or_comm, eq_comm]
        · simp [edge_update, h1]
      · intro hn
        by_cases h2 : k = p
        · simpa [edge_update, h2] using set_insert_nodup addr_lt cptr n.childs hn
        · simpa [edge_update, h2] using hn
      · intro hn
        by_cases h1 : k = id
        · simpa [edge_update, h1] using set_insert_nodup addr_lt pn.ptr n.parents hn
        · simpa [edge_update, h1] using hn

theorem add_parent_ptr_at (addr_lt : Virus Id → Virus Id → Bool) (id : Id) (cptr : Virus Id)
    (nodes : List (Id × VirusNode Id)) (p k : Id) :
    ptr_at (add_parent addr_lt id cptr nodes p) k = ptr_at nodes k := by
  cases hp : map_find p nodes with
  | none => simp [add_parent, hp]
  | some pn =>
    unfold ptr_at
    rw [add_parent_find addr_lt id cptr nodes p pn hp k]
    cases hk : map_find k nodes with
    | none => rfl
    | some n => simp [edge_update]

theorem fold_add_parent_keys (addr_lt : Virus Id → Virus Id → Bool) (id : Id) (cptr : Virus Id)
    (ps : List Id) (nodes : List (Id × VirusNode Id)) :
    (ps.foldl (add_parent addr_lt id cptr) nodes).map Prod.fst = nodes.map Prod.fst := by
  induction ps generalizing nodes with
  | nil => rfl
  | cons p ps ih => rw [List.foldl_cons, ih, add_parent_keys]

theorem fold_add_parent_ptr_at (addr_lt : Virus Id → Virus Id → Bool) (id : Id) (cptr : Virus Id)
    (ps : List Id) (nodes : List (Id × VirusNode Id)) (k : Id) :
    ptr_at (ps.foldl (add_parent addr_lt id cptr) nodes) k = ptr_at nodes k := by
  induction ps generalizing nodes with
  | nil => rfl
  | cons p ps ih => rw [List.foldl_cons, ih, add_parent_ptr_at]

theorem fold_add_parent_grows (addr_lt : Virus Id → Virus Id → Bool) (id : Id) (cptr : Virus Id)
    (ps : List Id) (nodes : List (Id × VirusNode Id)) (k : Id) (n2 : VirusNode Id)
    (h : map_find k (ps.foldl (add_parent addr_lt id cptr) nodes) = some n2) :
    ∃ n, map_find k nodes = some n ∧
      grows n n2 (fun c => c = cptr ∧ k ∈ ps)
        (fun q => k = id ∧ ∃ p ∈ ps, ptr_at nodes p = some q) := by
  induction ps generalizing nodes with
  | nil =>
    refine ⟨n2, h, rfl, ?_, ?_, fun x => x, fun x => x⟩
    · intro c
      simp
    · intro q
      simp
  | cons p ps ih =>
    rw [List.foldl_cons] at h
    obtain ⟨n1, hn1, hg2⟩ := ih (add_parent addr_lt id cptr nodes p) h
    obtain ⟨n, hn, hg1⟩ := add_parent_grows addr_lt id cptr nodes p k n1 hn1
    refine ⟨n, hn, grows_trans n n1 n2 _ _ _ _ _ _ hg1 hg2 ?_ ?_⟩
    · intro c
      simp only [List.mem_cons]
      tauto
    · intro q
      simp only [List.mem_cons, add_parent_ptr_at]
      constructor
      · rintro ⟨hk, p', hp' | hp', hq⟩
        · subst hp'
          exact Or.inl ⟨hk, hq⟩
        · exact Or.inr ⟨hk, p', hp', hq⟩
      · rintro (⟨hk, hq⟩ | ⟨hk, p', hp', hq⟩)
        · exact ⟨hk, p, Or.inl rfl, hq⟩
        · exact ⟨hk, p', Or.inr hp', hq⟩

end AddParent

/-! ## The effect of the calls -/

section Effects

variable {Id : Type} [DecidableEq Id]

theorem create_parents_cases (addr_lt : Virus Id → Virus Id → Bool) (g : VirusGenealogy Id)
    (id : Id) (ps : List Id) :
    ((g.create_parents addr_lt id ps).thrown ≠ none ∧ (g.create_parents addr_lt id ps).graph = g) ∨
    (map_find id g.nodes = none ∧ (∀ p ∈ ps, (map_find p g.nodes).isSome = true) ∧
      g.create_parents addr_lt id ps =
        Outcome.mk none (VirusGenealogy.mk (created_nodes addr_lt g.nodes id ps) g.stem_id)) := by
  cases hid : map_find id g.nodes with
  | some n =>
    left
    simp [VirusGenealogy.create_parents, hid]
  | none =>
    cases hfp : find_parents g.nodes ps with
    | none =>
      left
      simp [VirusGenealogy.create_parents, hid, hfp]
    | some its =>
      right
      obtain ⟨h1, h2⟩ := find_parents_some g.nodes ps its hfp
      subst h1
      refine ⟨rfl, h2, ?_⟩
      simp [VirusGenealogy.create_parents, hid, hfp, map_insert, created_nodes, VirusNode.init]

theorem create_eq_create_parents (addr_lt : Virus Id → Virus Id → Bool) (g : VirusGenealogy Id)
    (id parent_id : Id) :
    g.create addr_lt id parent_id = g.create_parents addr_lt id [parent_id] := by
  cases hid : map_find id g.nodes with
  | some n => simp [VirusGenealogy.create, VirusGenealogy.create_parents, hid]
  | none =>
    cases hp : map_find parent_id g.nodes with
    | none => simp [VirusGenealogy.create, VirusGenealogy.create_parents, hid, hp, find_parents]
    | some n => simp [VirusGenealogy.create, VirusGenealogy.create_parents, hid, hp, find_parents]

theorem connect_cases (addr_lt : Virus Id → Virus Id → Bool) (g : VirusGenealogy Id)
    (child_id parent_id : Id) :
    (((map_find child_id g.nodes).isSome = false ∨ (map_find parent_id g.nodes).isSome = false) ∧
      g.connect addr_lt child_id parent_id =
        { thrown := some Exception.VirusAlreadyCreated, graph := g }) ∨
    (∃ child parent, map_find child_id g.nodes = some child ∧
      map_find parent_id g.nodes = some parent ∧
      g.connect addr_lt child_id parent_id =
        Outcome.mk none (VirusGenealogy.mk
          (map_modify child_id (VirusNode.insert_parent addr_lt parent.ptr) g.nodes) g.stem_id)) := by
  cases hc : map_find child_id g.nodes with
  | none =>
    left
    simp [VirusGenealogy.connect, hc]
  | some child =>
    cases hp : map_find parent_id g.nodes with
    | none =>
      left
      simp [VirusGenealogy.connect, hc, hp]
    | some parent =>
      right
      exact ⟨child, parent, rfl, rfl, by simp [VirusGenealogy.connect, hc, hp, VirusNode.insert_child]⟩

theorem created_nodes_keys (addr_lt : Virus Id → Virus Id → Bool)
    (nodes : List (Id × VirusNode Id)) (id : Id) (ps : List Id) :
    (created_nodes addr_lt nodes id ps).map Prod.fst = nodes.map Prod.fst ++ [id] := by
  simp [created_nodes, fold_add_parent_keys]

/-- The nodes after a successful `create(id, ps)`: the new node has the `Virus`
of `id`, no child, and the `Virus` objects of `ps` as parents; an old node
keeps its parents and gains the new `Virus` as a child when it is listed. -/
theorem created_nodes_find (addr_lt : Virus Id → Virus Id → Bool)
    (nodes : List (Id × VirusNode Id)) (id : Id) (ps : List Id)
    (hid : map_find id nodes = none) (hps : ∀ p ∈ ps, (map_find p nodes).isSome = true)
    (k : Id) (n2 : VirusNode Id) (h : map_find k (created_nodes addr_lt nodes id ps) = some n2) :
    (k = id ∧ grows (VirusNode.init id) n2 (fun _ => False)
      (fun q => ∃ p ∈ ps, ptr_at nodes p = some q)) ∨
    (k ≠ id ∧ ∃ n, map_find k nodes = some n ∧
      grows n n2 (fun c => c = Virus.mk id ∧ k ∈ ps) (fun _ => False)) := by
  obtain ⟨n1, hn1, hg⟩ := fold_add_parent_grows addr_lt id (Virus.mk id) ps _ k n2 h
  have hnotin : id ∉ ps := by
    intro hmem
    have := hps id hmem
    rw [hid] at this
    cases this
  have hptr : ∀ p ∈ ps, ptr_at (nodes ++ [(id, VirusNode.init id)]) p = ptr_at nodes p := by
    intro p hp
    obtain ⟨pn, hpn⟩ := Option.isSome_iff_exists.mp (hps p hp)
    simp [ptr_at, map_find_append_some p nodes _ pn hpn, hpn]
  obtain ⟨g1, g2, g3, g4, g5⟩ := hg
  by_cases hk : k = id
  · left
    subst hk
    rw [map_find_append_none k nodes _ hid] at hn1
    simp only [map_find, if_true, Option.some.injEq] at hn1
    subst hn1
    refine ⟨rfl, g1, ?_, ?_, g4, g5⟩
    · intro c
      rw [g2]
      simp [hnotin]
    · intro q
      rw [g3]
      simp only [true_and]
      constructor
      · rintro (hq | ⟨p, hp, hq⟩)
        · exact Or.inl hq
        · exact Or.inr ⟨p, hp, by rw [← hptr p hp]; exact hq⟩
      · rintro (hq | ⟨p, hp, hq⟩)
        · exact Or.inl hq
        · exact Or.inr ⟨p, hp, by rw [hptr p hp]; exact hq⟩
  · right
    refine ⟨hk, n1, ?_, g1, g2, ?_, g4, g5⟩
    · cases hkn : map_find k nodes with
      | none =>
        rw [map_find_append_none k nodes _ hkn] at hn1
        simp [map_find, hk] at hn1
      | some n =>
        rw [map_find_append_some k nodes _ n hkn] at hn1
        exact hn1.symm ▸ rfl
    · intro q
      rw [g3]
      simp [hk]

theorem create_parents_success (addr_lt : Virus Id → Virus Id → Bool) (g : VirusGenealogy Id)
    (id : Id) (ps : List Id) (hid : map_find id g.nodes = none)
    (hps : ∀ p ∈ ps, (map_find p g.nodes).isSome = true) :
    g.create_parents addr_lt id ps =
      Outcome.mk none (VirusGenealogy.mk (created_nodes addr_lt g.nodes id ps) g.stem_id) := by
  rcases create_parents_cases addr_lt g id ps with ⟨hthrown, _⟩ | ⟨_, _, h⟩
  · exfalso
    apply hthrown
    simp [VirusGenealogy.create_parents, hid, find_parents_of_all g.nodes ps hps]
  · exact h

/-! ### Every stored node holds the `Virus` of its key -/

theorem ptr_ok_apply (addr_lt : Virus Id → Virus Id → Bool) (g : VirusGenealogy Id)
    (c : Call Id) (h : ptr_ok g.nodes) : ptr_ok (c.apply addr_lt g).graph.nodes := by
  have hcp : ∀ id ps, ptr_ok (g.create_parents addr_lt id ps).graph.nodes := by
    intro id ps
    rcases create_parents_cases addr_lt g id ps with ⟨_, hsame⟩ | ⟨hid, hps, heq⟩
    · rw [hsame]
      exact h
    · rw [heq]
      intro k n2 hk
      rcases created_nodes_find addr_lt g.nodes id ps hid hps k n2 hk with
        ⟨hkid, hg⟩ | ⟨_, n, hn, hg⟩
      · rw [hg.1, hkid]
        rfl
      · rw [hg.1]
        exact h k n hn
  cases c with
  | create id parent_id =>
    show ptr_ok (g.create addr_lt id parent_id).graph.nodes
    rw [create_eq_create_parents]
    exact hcp id [parent_id]
  | create_parents id ps => exact hcp id ps
  | connect child_id parent_id =>
    show ptr_ok (g.connect addr_lt child_id parent_id).graph.nodes
    rcases connect_cases addr_lt g child_id parent_id with ⟨_, heq⟩ | ⟨child, parent, _, _, heq⟩
    · rw [heq]
      exact h
    · rw [heq]
      intro k n2 hk
      obtain ⟨n, hn, hn2⟩ := map_find_modify_some k child_id _ g.nodes n2 hk
      have hptr : n2.ptr = n.ptr := by
        by_cases hkc : k = child_id
        · simp [hn2, hkc, VirusNode.insert_parent]
        · simp [hn2, hkc]
      rw [hptr]
      exact h k n hn

theorem ptr_ok_run (addr_lt : Virus Id → Virus Id → Bool) (calls : List (Call Id))
    (g : VirusGenealogy Id) (h : ptr_ok g.nodes) : ptr_ok (run addr_lt g calls).nodes := by
  induction calls generalizing g with
  | nil => exact h
  | cons c cs ih => exact ih _ (ptr_ok_apply addr_lt g c h)

theorem ptr_ok_new (s : Id) : ptr_ok (VirusGenealogy.new s).nodes := by
  intro k n hk
  by_cases hks : k = s
  · subst hks
    simp only [VirusGenealogy.new, map_find, if_true, Option.some.injEq] at hk
    rw [← hk]
    rfl
  · simp [VirusGenealogy.new, map_find, hks] at hk

theorem ptr_ok_reachable (addr_lt : Virus Id → Virus Id → Bool) (g : VirusGenealogy Id)
    (hg : Reachable addr_lt g) : ptr_ok g.nodes := by
  obtain ⟨s, calls, rfl⟩ := hg
  exact ptr_ok_run addr_lt calls _ (ptr_ok_new s)

theorem ptr_at_of_ptr_ok (nodes : List (Id × VirusNode Id)) (h : ptr_ok nodes) (p : Id)
    (hp : (map_find p nodes).isSome = true) : ptr_at nodes p = some (Virus.mk p) := by
  obtain ⟨n, hn⟩ := Option.isSome_iff_exists.mp hp
  simp [ptr_at, hn, h p n hn]

/-! ### Child edges point to nodes created later -/

theorem child_after_created (addr_lt : Virus Id → Virus Id → Bool)
    (nodes : List (Id × VirusNode Id)) (id : Id) (ps : List Id)
    (hid : map_find id nodes = none) (hps : ∀ p ∈ ps, (map_find p nodes).isSome = true)
    (h : child_after nodes) : child_after (created_nodes addr_lt nodes id ps) := by
  have hkeys := created_nodes_keys addr_lt nodes id ps
  have hidk : id ∉ nodes.map Prod.fst := by
    intro hmem
    have := (map_find_isSome_iff id nodes).mpr hmem
    rw [hid] at this
    cases this
  intro k n2 hk c hc
  unfold rank
  rw [hkeys]
  rcases created_nodes_find addr_lt nodes id ps hid hps k n2 hk with
    ⟨_, hg⟩ | ⟨_, n, hn, hg⟩
  · rcases (hg.2.1 c).mp hc with h1 | h1
    · simp [VirusNode.init] at h1
    · exact False.elim h1
  · have hkk : k ∈ nodes.map Prod.fst :=
      (map_find_isSome_iff k nodes).mp (by rw [hn]; rfl)
    rcases (hg.2.1 c).mp hc with h1 | ⟨h1, _⟩
    · obtain ⟨hcm, hlt⟩ := h k n hn c h1
      refine ⟨List.mem_append_left _ hcm, ?_⟩
      rw [List.indexOf_append_of_mem hkk, List.indexOf_append_of_mem hcm]
      exact hlt
    · subst h1
      refine ⟨by simp, ?_⟩
      rw [List.indexOf_append_of_mem hkk, List.indexOf_append_of_not_mem hidk]
      have := List.indexOf_lt_length.mpr hkk
      omega

theorem child_after_apply (addr_lt : Virus Id → Virus Id → Bool) (g : VirusGenealogy Id)
    (c : Call Id) (h : child_after g.nodes) : child_after (c.apply addr_lt g).graph.nodes := by
  have hcp : ∀ id ps, child_after (g.create_parents addr_lt id ps).graph.nodes := by
    intro id ps
    rcases create_parents_cases addr_lt g id ps with ⟨_, hsame⟩ | ⟨hid, hps, heq⟩
    · rw [hsame]
      exact h
    · rw [heq]
      exact child_after_created addr_lt g.nodes id ps hid hps h
  cases c with
  | create id parent_id =>
    show child_after (g.create addr_lt id parent_id).graph.nodes
    rw [create_eq_create_parents]
    exact hcp id [parent_id]
  | create_parents id ps => exact hcp id ps
  | connect child_id parent_id =>
    show child_after (g.connect addr_lt child_id parent_id).graph.nodes
    rcases connect_cases addr_lt g child_id parent_id with ⟨_, heq⟩ | ⟨child, parent, _, _, heq⟩
    · rw [heq]
      exact h
    · rw [heq]
      intro k n2 hk c hc
      obtain ⟨n, hn, hn2⟩ := map_find_modify_some k child_id _ g.nodes n2 hk
      have hchilds : n2.childs = n.childs := by
        by_cases hkc : k = child_id
        · simp [hn2, hkc, VirusNode.insert_parent]
        · simp [hn2, hkc]
      rw [hchilds] at hc
      simp only [rank, map_modify_keys]
      exact h k n hn c hc

theorem child_after_run (addr_lt : Virus Id → Virus Id → Bool) (calls : List (Call Id))
    (g : VirusGenealogy Id) (h : child_after g.nodes) :
    child_after (run addr_lt g calls).nodes := by
  induction calls generalizing g with
  | nil => exact h
  | cons c cs ih => exact ih _ (child_after_apply addr_lt g c h)

theorem child_after_new (s : Id) : child_after (VirusGenealogy.new s).nodes := by
  intro k n hk c hc
  by_cases hks : k = s
  · subst hks
    simp only [VirusGenealogy.new, map_find, if_true, Option.some.injEq] at hk
    rw [← hk] at hc
    simp [VirusNode.init] at hc
  · simp [VirusGenealogy.new, map_find, hks] at hk

theorem rank_lt_of_path (g : VirusGenealogy Id) (h : child_after g.nodes) (a b : Id)
    (hab : Relation.TransGen g.child_edge a b) : rank g.nodes a < rank g.nodes b := by
  have hedge : ∀ x y, g.child_edge x y → rank g.nodes x < rank g.nodes y := by
    intro x y hxy
    unfold VirusGenealogy.child_edge VirusGenealogy.child_ids at hxy
    cases hx : map_find x g.nodes with
    | none => simp [hx] at hxy
    | some n =>
      rw [hx] at hxy
      obtain ⟨c, hc, hcy⟩ := List.mem_map.mp hxy
      rw [← hcy]
      exact (h x n hx c hc).2
  induction hab with
  | single hxy => exact hedge _ _ hxy
  | tail _ hyz ih => exact lt_trans ih (hedge _ _ hyz)

/-! ### What a call keeps of an existing node -/

theorem parents_present_apply (addr_lt : Virus Id → Virus Id → Bool) (g : VirusGenealogy Id)
    (c : Call Id) (hok : ptr_ok g.nodes) (h : parents_present g.nodes) :
    parents_present (c.apply addr_lt g).graph.nodes := by
  have hcp : ∀ id ps, parents_present (g.create_parents addr_lt id ps).graph.nodes := by
    intro id ps
    rcases create_parents_cases addr_lt g id ps with ⟨_, hsame⟩ | ⟨hid, hps, heq⟩
    · rw [hsame]
      exact h
    · rw [heq]
      have hold : ∀ x, (map_find x g.nodes).isSome = true →
          (map_find x (created_nodes addr_lt g.nodes id ps)).isSome = true := by
        intro x hx
        rw [map_find_isSome_iff, created_nodes_keys]
        exact List.mem_append_left _ ((map_find_isSome_iff x g.nodes).mp hx)
      intro k n2 hk q hq
      rcases created_nodes_find addr_lt g.nodes id ps hid hps k n2 hk with
        ⟨_, hg⟩ | ⟨_, n, hn, hg⟩
      · rcases (hg.2.2.1 q).mp hq with h1 | ⟨p, hp, hpq⟩
        · simp [VirusNode.init] at h1
        · rw [ptr_at_of_ptr_ok g.nodes hok p (hps p hp)] at hpq
          cases hpq
          exact hold p (hps p hp)
      · rcases (hg.2.2.1 q).mp hq with h1 | h1
        · exact hold _ (h k n hn q h1)
        · exact False.elim h1
  cases c with
  | create id parent_id =>
    show parents_present (g.create addr_lt id parent_id).graph.nodes
    rw [create_eq_create_parents]
    exact hcp id [parent_id]
  | create_parents id ps => exact hcp id ps
  | connect child_id parent_id =>
    show parents_present (g.connect addr_lt child_id parent_id).graph.nodes
    rcases connect_cases addr_lt g child_id parent_id with ⟨_, heq⟩ | ⟨child, parent, _, hpa, heq⟩
    · rw [heq]
      exact h
    · rw [heq]
      have hold : ∀ x, (map_find x g.nodes).isSome = true → (map_find x (map_modify child_id
          (VirusNode.insert_parent addr_lt parent.ptr) g.nodes)).isSome = true := by
        intro x hx
        rw [map_find_isSome_iff, map_modify_keys]
        exact (map_find_isSome_iff x g.nodes).mp hx
      intro k n2 hk q hq
      obtain ⟨n, hn, hn2⟩ := map_find_modify_some k child_id _ g.nodes n2 hk
      by_cases hkc : k = child_id
      · rw [hn2, if_pos hkc] at hq
        rcases (mem_set_insert addr_lt parent.ptr q n.parents).mp hq with h1 | h1
        · have hqid : q.get_id = parent_id := by rw [h1, hok parent_id parent hpa]
          rw [hqid]
          exact hold parent_id (by rw [hpa]; rfl)
        · exact hold _ (h k n hn q h1)
      · rw [hn2, if_neg hkc] at hq
        exact hold _ (h k n hn q hq)

theorem parents_present_run (addr_lt : Virus Id → Virus Id → Bool) (calls : List (Call Id))
    (g : VirusGenealogy Id) (hok : ptr_ok g.nodes) (h : parents_present g.nodes) :
    parents_present (run addr_lt g calls).nodes := by
  induction calls generalizing g with
  | nil => exact h
  | cons c cs ih =>
    exact ih _ (ptr_ok_apply addr_lt g c hok) (parents_present_apply addr_lt g c hok h)

theorem parents_present_new (s : Id) : parents_present (VirusGenealogy.new s).nodes := by
  intro k n hk q hq
  by_cases hks : k = s
  · subst hks
    simp only [VirusGenealogy.new, map_find, if_true, Option.some.injEq] at hk
    rw [← hk] at hq
    simp [VirusNode.init] at hq
  · simp [VirusGenealogy.new, map_find, hks] at hk

/-! ### Parent sets stay in address order -/

theorem parents_sorted_apply (addr_lt : Virus Id → Virus Id → Bool)
    (htrans : ∀ a b c, addr_lt a b = true → addr_lt b c = true → addr_lt a c = true)
    (htotal : ∀ a b, a ≠ b → addr_lt a b = true ∨ addr_lt b a = true)
    (g : VirusGenealogy Id) (c : Call Id) (h : parents_sorted addr_lt g.nodes) :
    parents_sorted addr_lt (c.apply addr_lt g).graph.nodes := by
  have hstep : ∀ id cptr nodes p, parents_sorted addr_lt nodes →
      parents_sorted addr_lt (add_parent addr_lt id cptr nodes p) := by
    intro id cptr nodes p hn k n2 hk
    cases hp : map_find p nodes with
    | none =>
      have hsame : add_parent addr_lt id cptr nodes p = nodes := by
        simp [add_parent, hp]
      rw [hsame] at hk
      exact hn k n2 hk
    | some pn =>
      rw [add_parent_find addr_lt id cptr nodes p pn hp k] at hk
      cases hkn : map_find k nodes with
      | none => simp [hkn] at hk
      | some n =>
        rw [hkn] at hk
        simp only [Option.map_some', Option.some.injEq] at hk
        rw [← hk]
        by_cases hkid : k = id
        · simpa [edge_update, hkid] using
            set_insert_pairwise addr_lt htrans htotal pn.ptr n.parents (hn k n hkn)
        · simpa [edge_update, hkid] using hn k n hkn
  have hfold : ∀ id cptr (ps : List Id) nodes, parents_sorted addr_lt nodes →
      parents_sorted addr_lt (ps.foldl (add_parent addr_lt id cptr) nodes) := by
    intro id cptr ps
    induction ps with
    | nil => exact fun nodes hn => hn
    | cons p ps ih => exact fun nodes hn => ih _ (hstep id cptr nodes p hn)
  have hcp : ∀ id ps, parents_sorted addr_lt (g.create_parents addr_lt id ps).graph.nodes := by
    intro id ps
    rcases create_parents_cases addr_lt g id ps with ⟨_, hsame⟩ | ⟨_, _, heq⟩
    · rw [hsame]
      exact h
    · rw [heq]
      apply hfold
      intro k n hk
      cases hkn : map_find k g.nodes with
      | none =>
        rw [map_find_append_none k g.nodes _ hkn] at hk
        by_cases hkid : k = id
        · simp only [map_find, hkid, if_true, Option.some.injEq] at hk
          rw [← hk]
          simp [VirusNode.init]
        · simp [map_find, hkid] at hk
      | some n1 =>
        rw [map_find_append_some k g.nodes _ n1 hkn] at hk
        rw [← Option.some.inj hk]
        exact h k n1 hkn
  cases c with
  | create id parent_id =>
    show parents_sorted addr_lt (g.create addr_lt id parent_id).graph.nodes
    rw [create_eq_create_parents]
    exact hcp id [parent_id]
  | create_parents id ps => exact hcp id ps
  | connect child_id parent_id =>
    show parents_sorted addr_lt (g.connect addr_lt child_id parent_id).graph.nodes
    rcases connect_cases addr_lt g child_id parent_id with ⟨_, heq⟩ | ⟨child, parent, _, _, heq⟩
    · rw [heq]
      exact h
    · rw [heq]
      intro k n2 hk
      obtain ⟨n, hn, hn2⟩ := map_find_modify_some k child_id _ g.nodes n2 hk
      by_cases hkc : k = child_id
      · rw [hn2, if_pos hkc]
        exact set_insert_pairwise addr_lt htrans htotal parent.ptr n.parents (h k n hn)
      · rw [hn2, if_neg hkc]
        exact h k n hn

theorem parents_sorted_run (addr_lt : Virus Id → Virus Id → Bool)
    (htrans : ∀ a b c, addr_lt a b = true → addr_lt b c = true → addr_lt a c = true)
    (htotal : ∀ a b, a ≠ b → addr_lt a b = true ∨ addr_lt b a = true)
    (calls : List (Call Id)) (g : VirusGenealogy Id) (h : parents_sorted addr_lt g.nodes) :
    parents_sorted addr_lt (run addr_lt g calls).nodes := by
  induction calls generalizing g with
  | nil => exact h
  | cons c cs ih => exact ih _ (parents_sorted_apply addr_lt htrans htotal g c h)

theorem parents_sorted_new (addr_lt : Virus Id → Virus Id → Bool) (s : Id) :
    parents_sorted addr_lt (VirusGenealogy.new s).nodes := by
  intro k n hk
  by_cases hks : k = s
  · subst hks
    simp only [VirusGenealogy.new, map_find, if_true, Option.some.injEq] at hk
    rw [← hk]
    simp [VirusNode.init]
  · simp [VirusGenealogy.new, map_find, hks] at hk

end Effects

/-! ## Claims -/

section Claims

variable {Id : Type} [DecidableEq Id]

/-- C2: on a reachable genealogy, when `id` is absent and every entry of
`parent_ids` is present, the multi-parent `create` returns normally and
afterwards `id` exists, its child set is empty, `get_parents(id)` is a
repetition-free sequence with exactly the entries of `parent_ids`, and every
listed parent has `id` in its child set; for `parent_ids = [p]` this gives
`get_parents(id) = [p]`, `id` a child of `p` and `p` not a child of `id`. -/
theorem create_parents_adds_node (addr_lt : Virus Id → Virus Id → Bool)
    (g : VirusGenealogy Id) (hg : Reachable addr_lt g) (id : Id) (parent_ids : List Id)
    (hid : g.exists id = false) (hps : ∀ p ∈ parent_ids, g.exists p = true) :
    (g.create_parents addr_lt id parent_ids).thrown = none ∧
    (g.create_parents addr_lt id parent_ids).graph.exists id = true ∧
    (g.create_parents addr_lt id parent_ids).graph.child_ids id = [] ∧
    (∃ ps, (g.create_parents addr_lt id parent_ids).graph.get_parents id = Except.ok ps ∧
      ps.Nodup ∧ ∀ q, q ∈ ps ↔ q ∈ parent_ids) ∧
    (∀ p ∈ parent_ids, id ∈ (g.create_parents addr_lt id parent_ids).graph.child_ids p) ∧
    (∀ p, parent_ids = [p] →
      (g.create_parents addr_lt id parent_ids).graph.get_parents id = Except.ok [p] ∧
      id ∈ (g.create_parents addr_lt id parent_ids).graph.child_ids p ∧
      p ∉ (g.create_parents addr_lt id parent_ids).graph.child_ids id) := by
  have hid' : map_find id g.nodes = none := by
    simpa [VirusGenealogy.exists] using hid
  have hps' : ∀ p ∈ parent_ids, (map_find p g.nodes).isSome = true := hps
  have hok := ptr_ok_reachable addr_lt g hg
  rw [create_parents_success addr_lt g id parent_ids hid' hps']
  have hkeys := created_nodes_keys addr_lt g.nodes id parent_ids
  -- the new node
  have hex : (map_find id (created_nodes addr_lt g.nodes id parent_ids)).isSome = true := by
    rw [map_find_isSome_iff, hkeys]
    simp
  obtain ⟨n2, hn2⟩ := Option.isSome_iff_exists.mp hex
  have hnew : grows (VirusNode.init id) n2 (fun _ => False)
      (fun q => ∃ p ∈ parent_ids, ptr_at g.nodes p = some q) := by
    rcases created_nodes_find addr_lt g.nodes id parent_ids hid' hps' id n2 hn2 with
      ⟨_, h⟩ | ⟨hne, _⟩
    · exact h
    · exact absurd rfl hne
  obtain ⟨_, hc, hp, _, hnd⟩ := hnew
  have hchilds : n2.childs = [] := by
    apply List.eq_nil_iff_forall_not_mem.mpr
    intro c hmem
    rcases (hc c).mp hmem with h | h
    · simp [VirusNode.init] at h
    · exact h
  have hparents : ∀ q, q ∈ n2.parents.map Virus.get_id ↔ q ∈ parent_ids := by
    intro q
    rw [List.mem_map]
    constructor
    · rintro ⟨v, hv, rfl⟩
      rcases (hp v).mp hv with h | ⟨p, hpm, hpv⟩
      · simp [VirusNode.init] at h
      · rw [ptr_at_of_ptr_ok g.nodes hok p (hps' p hpm)] at hpv
        cases hpv
        exact hpm
    · intro hq
      exact ⟨Virus.mk q, (hp _).mpr (Or.inr ⟨q, hq, ptr_at_of_ptr_ok g.nodes hok q (hps' q hq)⟩), rfl⟩
  have hnodup : (n2.parents.map Virus.get_id).Nodup := by
    apply List.Nodup.map
    · intro a b hab
      cases a
      cases b
      simpa using hab
    · exact hnd (by simp [VirusNode.init])
  -- the listed parents
  have hlisted : ∀ p ∈ parent_ids, id ∈ VirusGenealogy.child_ids
      (VirusGenealogy.mk (created_nodes addr_lt g.nodes id parent_ids) g.stem_id) p := by
    intro p hpm
    have hpex : (map_find p (created_nodes addr_lt g.nodes id parent_ids)).isSome = true := by
      rw [map_find_isSome_iff, hkeys]
      exact List.mem_append_left _ ((map_find_isSome_iff p g.nodes).mp (hps' p hpm))
    obtain ⟨pn2, hpn2⟩ := Option.isSome_iff_exists.mp hpex
    rcases created_nodes_find addr_lt g.nodes id parent_ids hid' hps' p pn2 hpn2 with
      ⟨hpe, _⟩ | ⟨_, pn, _, hgr⟩
    · have := hps' p hpm
      rw [hpe, hid'] at this
      cases this
    · have hmem : Virus.mk id ∈ pn2.childs := (hgr.2.1 _).mpr (Or.inr ⟨rfl, hpm⟩)
      simp only [VirusGenealogy.child_ids, hpn2]
      exact List.mem_map.mpr ⟨Virus.mk id, hmem, rfl⟩
  have hcids : VirusGenealogy.child_ids
      (VirusGenealogy.mk (created_nodes addr_lt g.nodes id parent_ids) g.stem_id) id = [] := by
    simp [VirusGenealogy.child_ids, hn2, hchilds]
  have hgp : VirusGenealogy.get_parents
      (VirusGenealogy.mk (created_nodes addr_lt g.nodes id parent_ids) g.stem_id) id =
      Except.ok (n2.parents.map Virus.get_id) := by
    simp [VirusGenealogy.get_parents, hn2]
  refine ⟨rfl, hex, hcids, ⟨_, hgp, hnodup, hparents⟩, hlisted, ?_⟩
  intro p hpl
  refine ⟨?_, hlisted p (by simp [hpl]), ?_⟩
  · rw [hgp, eq_singleton_of_nodup _ p hnodup (fun q => by rw [hparents q, hpl])]
  · rw [hcids]
    exact List.not_mem_nil p

/-- C2 witness: scenario 3, `create(2, [0, 1])` on the genealogy 0 → 1. -/
theorem create_parents_adds_node_witness :
    (g_chain.create_parents addr_by_id 2 [0, 1]).thrown = none ∧
    (g_chain.create_parents addr_by_id 2 [0, 1]).graph.exists 2 = true ∧
    (g_chain.create_parents addr_by_id 2 [0, 1]).graph.child_ids 2 = [] ∧
    (∃ ps, (g_chain.create_parents addr_by_id 2 [0, 1]).graph.get_parents 2 = Except.ok ps ∧
      ps.Nodup ∧ ∀ q, q ∈ ps ↔ q ∈ [0, 1]) ∧
    (∀ p ∈ [0, 1], 2 ∈ (g_chain.create_parents addr_by_id 2 [0, 1]).graph.child_ids p) ∧
    (∀ p, [0, 1] = [p] →
      (g_chain.create_parents addr_by_id 2 [0, 1]).graph.get_parents 2 = Except.ok [p] ∧
      2 ∈ (g_chain.create_parents addr_by_id 2 [0, 1]).graph.child_ids p ∧
      p ∉ (g_chain.create_parents addr_by_id 2 [0, 1]).graph.child_ids 2) :=
  create_parents_adds_node addr_by_id g_chain ⟨0, [Call.create 1 0], rfl⟩ 2 [0, 1]
    (by decide) (by decide)

/-- C7 as amended: on a reachable genealogy, for existing `child_id` and
`parent_id` with `parent_id` reachable from `child_id` by child edges
(`child_id = parent_id` included), `connect` makes no cycle check: it returns
normally and afterwards `parent_id` is in the parent set of `child_id`. -/
theorem connect_reachable_parent_accepted (addr_lt : Virus Id → Virus Id → Bool)
    (g : VirusGenealogy Id) (hg : Reachable addr_lt g) (child_id parent_id : Id)
    (hc : g.exists child_id = true) (hp : g.exists parent_id = true)
    (_hreach : Relation.ReflTransGen g.child_edge child_id parent_id) :
    (g.connect addr_lt child_id parent_id).thrown = none ∧
    parent_id ∈ (g.connect addr_lt child_id parent_id).graph.parent_ids child_id := by
  have hok := ptr_ok_reachable addr_lt g hg
  rcases connect_cases addr_lt g child_id parent_id with ⟨habs, _⟩ | ⟨child, parent, hch, hpa, heq⟩
  · exfalso
    have hc' : (map_find child_id g.nodes).isSome = true := hc
    have hp' : (map_find parent_id g.nodes).isSome = true := hp
    rcases habs with h | h
    · rw [hc'] at h
      cases h
    · rw [hp'] at h
      cases h
  · rw [heq]
    refine ⟨rfl, ?_⟩
    have hfind : map_find child_id
        (map_modify child_id (VirusNode.insert_parent addr_lt parent.ptr) g.nodes) =
        some (child.insert_parent addr_lt parent.ptr) := by
      rw [map_find_modify]
      simp [hch]
    simp only [VirusGenealogy.parent_ids, hfind]
    refine List.mem_map.mpr ⟨parent.ptr, ?_, ?_⟩
    · simp [VirusNode.insert_parent, mem_set_insert]
    · rw [hok parent_id parent hpa]

/-- C7 witness: the genealogy 0 → 1 with `connect(0, 1)`. -/
theorem connect_reachable_parent_accepted_witness :
    (g_chain.connect addr_by_id 0 1).thrown = none ∧
    1 ∈ (g_chain.connect addr_by_id 0 1).graph.parent_ids 0 :=
  connect_reachable_parent_accepted addr_by_id g_chain ⟨0, [Call.create 1 0], rfl⟩ 0 1
    (by decide) (by decide) (Relation.ReflTransGen.single (by decide : 1 ∈ g_chain.child_ids 0))

/-- C3: when `id` is absent and some entry of `parent_ids` is absent, wherever
it stands in the list, the multi-parent `create` throws `VirusNotFound` and the
genealogy it leaves is the one it was called on. -/
theorem create_parents_absent_parent_throws (addr_lt : Virus Id → Virus Id → Bool)
    (g : VirusGenealogy Id) (id : Id) (parent_ids : List Id)
    (hid : g.exists id = false) (hp : ∃ p ∈ parent_ids, g.exists p = false) :
    (g.create_parents addr_lt id parent_ids).thrown = some Exception.VirusNotFound ∧
    (g.create_parents addr_lt id parent_ids).graph = g := by
  have hid' : map_find id g.nodes = none := by
    simpa [VirusGenealogy.exists] using hid
  have hfp : find_parents g.nodes parent_ids = none := by
    apply find_parents_of_absent
    obtain ⟨p, hmem, hpe⟩ := hp
    exact ⟨p, hmem, by simpa [VirusGenealogy.exists] using hpe⟩
  simp [VirusGenealogy.create_parents, hid', hfp]

/-- C3 witness: on the genealogy 0 → 1 the call `create(2, [0, 7, 1])` names
the absent parent 7 in the middle of the list. -/
theorem create_parents_absent_parent_throws_witness :
    (g_chain.create_parents addr_by_id 2 [0, 7, 1]).thrown = some Exception.VirusNotFound ∧
    (g_chain.create_parents addr_by_id 2 [0, 7, 1]).graph = g_chain :=
  create_parents_absent_parent_throws addr_by_id g_chain 2 [0, 7, 1] (by decide)
    ⟨7, by decide, by decide⟩

/-- C4: when `id` is present, both forms of `create` throw
`VirusAlreadyCreated` whatever the parents are (present or not), and leave the
genealogy as it was. -/
theorem create_existing_throws (addr_lt : Virus Id → Virus Id → Bool)
    (g : VirusGenealogy Id) (id : Id) (hid : g.exists id = true) :
    (∀ parent_id : Id, g.create addr_lt id parent_id =
      { thrown := some Exception.VirusAlreadyCreated, graph := g }) ∧
    (∀ parent_ids : List Id, g.create_parents addr_lt id parent_ids =
      { thrown := some Exception.VirusAlreadyCreated, graph := g }) := by
  obtain ⟨n, hn⟩ := Option.isSome_iff_exists.mp hid
  constructor
  · intro parent_id
    simp [VirusGenealogy.create, hn]
  · intro parent_ids
    simp [VirusGenealogy.create_parents, hn]

/-- C4 witness: scenario 4, `create(1, 0)` again on the genealogy of scenario 3,
and `create(1, [0, 9])` with the absent parent 9. -/
theorem create_existing_throws_witness :
    g_diamond.create addr_by_id 1 0 =
      { thrown := some Exception.VirusAlreadyCreated, graph := g_diamond } ∧
    g_diamond.create_parents addr_by_id 1 [0, 9] =
      { thrown := some Exception.VirusAlreadyCreated, graph := g_diamond } :=
  ⟨(create_existing_throws addr_by_id g_diamond 1 (by decide)).1 0,
   (create_existing_throws addr_by_id g_diamond 1 (by decide)).2 [0, 9]⟩

/-- C10: for existing `a` and `b`, a second `connect(a, b)` right after the
first returns normally and leaves exactly the genealogy the first call left. -/
theorem connect_idempotent (addr_lt : Virus Id → Virus Id → Bool)
    (g : VirusGenealogy Id) (a b : Id) (ha : g.exists a = true) (hb : g.exists b = true) :
    (g.connect addr_lt a b).thrown = none ∧
    ((g.connect addr_lt a b).graph.connect addr_lt a b).thrown = none ∧
    ((g.connect addr_lt a b).graph.connect addr_lt a b).graph = (g.connect addr_lt a b).graph := by
  obtain ⟨na, hna⟩ := Option.isSome_iff_exists.mp ha
  obtain ⟨nb, hnb⟩ := Option.isSome_iff_exists.mp hb
  have h1 : g.connect addr_lt a b =
      { thrown := none,
        graph := { g with nodes := map_modify a (VirusNode.insert_parent addr_lt nb.ptr) g.nodes } } := by
    simp [VirusGenealogy.connect, hna, hnb, VirusNode.insert_child]
  have hfa : map_find a (map_modify a (VirusNode.insert_parent addr_lt nb.ptr) g.nodes) =
      some (na.insert_parent addr_lt nb.ptr) := by
    rw [map_find_modify]
    simp [hna]
  have hfb : ∃ nb', map_find b (map_modify a (VirusNode.insert_parent addr_lt nb.ptr) g.nodes) =
      some nb' ∧ nb'.ptr = nb.ptr := by
    rw [map_find_modify]
    by_cases hba : b = a
    · subst hba
      simp [hnb, VirusNode.insert_parent]
    · simp [hba, hnb]
  obtain ⟨nb', hnb', hptr⟩ := hfb
  rw [h1]
  refine ⟨rfl, ?_, ?_⟩
  · simp [VirusGenealogy.connect, hfa, hnb']
  · simp only [VirusGenealogy.connect, hfa, hnb', hptr, VirusNode.insert_child]
    congr 1
    exact map_modify_idem a _ (fun v => by simp [VirusNode.insert_parent, set_insert_idem]) g.nodes

/-- C10 witness: scenario 5, `connect(2, 1)` where 1 is already a parent of 2,
called twice. -/
theorem connect_idempotent_witness :
    (g_diamond.connect addr_by_id 2 1).thrown = none ∧
    ((g_diamond.connect addr_by_id 2 1).graph.connect addr_by_id 2 1).thrown = none ∧
    ((g_diamond.connect addr_by_id 2 1).graph.connect addr_by_id 2 1).graph =
      (g_diamond.connect addr_by_id 2 1).graph :=
  connect_idempotent addr_by_id g_diamond 2 1 (by decide) (by decide)

/-- C8: in every genealogy the constructor and a finite sequence of `create`
and `connect` calls yield (a call that throws leaves the genealogy as it was,
so the sequences of successful calls are among them), no id is reachable from
itself by a non-empty path of child edges. -/
theorem child_edges_acyclic (addr_lt : Virus Id → Virus Id → Bool) (s : Id)
    (calls : List (Call Id)) (a : Id) :
    ¬ Relation.TransGen (run addr_lt (VirusGenealogy.new s) calls).child_edge a a := by
  intro hpath
  have hinv := child_after_run addr_lt calls (VirusGenealogy.new s) (child_after_new s)
  exact lt_irrefl _ (rank_lt_of_path _ hinv a a hpath)

/-- C11: whenever `connect` throws, the genealogy it leaves (the existing ids,
every parent set, every child set) is the one it was called on. -/
theorem connect_failure_atomic (addr_lt : Virus Id → Virus Id → Bool) (g : VirusGenealogy Id)
    (child_id parent_id : Id) (hfail : (g.connect addr_lt child_id parent_id).thrown ≠ none) :
    (g.connect addr_lt child_id parent_id).graph = g := by
  rcases connect_cases addr_lt g child_id parent_id with ⟨_, heq⟩ | ⟨_, _, _, _, heq⟩
  · rw [heq]
  · rw [heq] at hfail
    exact absurd rfl hfail

/-- C11 witness: `connect(7, 1)` on the genealogy of scenario 3, child 7 absent. -/
theorem connect_failure_atomic_witness :
    (g_diamond.connect addr_by_id 7 1).graph = g_diamond :=
  connect_failure_atomic addr_by_id g_diamond 7 1 (by decide)

/-- C14: `operator[]` and `get_parents` throw `VirusNotFound` exactly when
`exists(id)` is false, they return a value when it is true, and `operator[]`
returns the `Virus` held by the node stored under `id`.  The three members are
`const` and are functions of the genealogy alone: they hand no genealogy back. -/
theorem lookups_fail_iff_absent (g : VirusGenealogy Id) (id : Id) :
    (g.get id = Except.error Exception.VirusNotFound ↔ g.exists id = false) ∧
    (g.get_parents id = Except.error Exception.VirusNotFound ↔ g.exists id = false) ∧
    (g.exists id = true → ∃ v ps, g.get id = Except.ok v ∧ g.get_parents id = Except.ok ps) ∧
    (∀ node, map_find id g.nodes = some node → g.get id = Except.ok node.ptr) := by
  cases h : map_find id g.nodes with
  | none =>
    simp [VirusGenealogy.get, VirusGenealogy.get_parents, VirusGenealogy.exists, h]
  | some node =>
    simp [VirusGenealogy.get, VirusGenealogy.get_parents, VirusGenealogy.exists, h]

/-- C14 witness: on the genealogy of scenario 3, `operator[]` at the existing
id 1 returns the `Virus` of the node stored under 1. -/
theorem lookups_fail_iff_absent_witness :
    g_diamond.get 1 = Except.ok (Virus.mk 1) :=
  (lookups_fail_iff_absent g_diamond 1).2.2.2
    { ptr := Virus.mk 1, childs := [Virus.mk 2], parents := [Virus.mk 0] } rfl

/-- C15: the single-parent `create(id, p)` and the multi-parent
`create(id, [p])` leave the same outcome: the same exception or normal return,
and the same genealogy. -/
theorem create_single_eq_singleton_list (addr_lt : Virus Id → Virus Id → Bool)
    (g : VirusGenealogy Id) (id p : Id) :
    (g.create addr_lt id p).thrown = (g.create_parents addr_lt id [p]).thrown ∧
    (g.create addr_lt id p).graph = (g.create_parents addr_lt id [p]).graph := by
  rw [create_eq_create_parents]
  exact ⟨rfl, rfl⟩

/-- C16: the constructed genealogy has exactly one node, `exists(x)` is true
exactly for the stem id, the parent set and the child set of the stem are
empty, `get_parents` of the stem is the empty sequence and `get_stem_id`
returns the id given. -/
theorem new_has_only_stem (s : Id) :
    (VirusGenealogy.new s).nodes.length = 1 ∧
    (∀ x, (VirusGenealogy.new s).exists x = true ↔ x = s) ∧
    (VirusGenealogy.new s).parent_ids s = [] ∧
    (VirusGenealogy.new s).child_ids s = [] ∧
    (VirusGenealogy.new s).get_parents s = Except.ok [] ∧
    (VirusGenealogy.new s).get_stem_id = s := by
  refine ⟨rfl, ?_, ?_, ?_, ?_, rfl⟩
  · intro x
    by_cases hx : x = s
    · simp [VirusGenealogy.new, VirusGenealogy.exists, map_find, hx]
    · simp [VirusGenealogy.new, VirusGenealogy.exists, map_find, hx]
  · simp [VirusGenealogy.new, VirusGenealogy.parent_ids, map_find, VirusNode.init]
  · simp [VirusGenealogy.new, VirusGenealogy.child_ids, map_find, VirusNode.init]
  · simp [VirusGenealogy.new, VirusGenealogy.get_parents, map_find, VirusNode.init]

/-- C19: when `parent_ids` contains `id` itself, the multi-parent `create`
throws (`VirusAlreadyCreated` if `id` exists, `VirusNotFound` if not) and
leaves the genealogy as it was; so does the single-parent `create(id, id)`. -/
theorem create_self_parent_throws (addr_lt : Virus Id → Virus Id → Bool)
    (g : VirusGenealogy Id) (id : Id) (parent_ids : List Id) (hmem : id ∈ parent_ids) :
    (g.exists id = true →
      g.create_parents addr_lt id parent_ids =
        Outcome.mk (some Exception.VirusAlreadyCreated) g ∧
      g.create addr_lt id id = Outcome.mk (some Exception.VirusAlreadyCreated) g) ∧
    (g.exists id = false →
      g.create_parents addr_lt id parent_ids = Outcome.mk (some Exception.VirusNotFound) g ∧
      g.create addr_lt id id = Outcome.mk (some Exception.VirusNotFound) g) := by
  constructor
  · intro hex
    obtain ⟨n, hn⟩ := Option.isSome_iff_exists.mp hex
    constructor
    · simp [VirusGenealogy.create_parents, hn]
    · simp [VirusGenealogy.create, hn]
  · intro hex
    have hid : map_find id g.nodes = none := by
      simpa [VirusGenealogy.exists] using hex
    have hfp : find_parents g.nodes parent_ids = none :=
      find_parents_of_absent g.nodes parent_ids ⟨id, hmem, hid⟩
    constructor
    · simp [VirusGenealogy.create_parents, hid, hfp]
    · simp [VirusGenealogy.create, hid]

/-- C19 witness: on the genealogy 0 → 1, `create(2, [0, 2])` and `create(2, 2)`
with the absent id 2 as its own parent. -/
theorem create_self_parent_throws_witness :
    g_chain.create_parents addr_by_id 2 [0, 2] = Outcome.mk (some Exception.VirusNotFound) g_chain ∧
    g_chain.create addr_by_id 2 2 = Outcome.mk (some Exception.VirusNotFound) g_chain :=
  (create_self_parent_throws addr_by_id g_chain 2 [0, 2] (by decide)).2 (by decide)

/-- C20: for an absent `id`, `create(id, [])` returns normally; it appends one
node, with empty parent set and empty child set, and every other id is looked
up exactly as before. -/
theorem create_empty_parent_list (addr_lt : Virus Id → Virus Id → Bool)
    (g : VirusGenealogy Id) (id : Id) (hid : g.exists id = false) :
    g.create_parents addr_lt id [] =
      Outcome.mk none (VirusGenealogy.mk (g.nodes ++ [(id, VirusNode.init id)]) g.stem_id) ∧
    (g.create_parents addr_lt id []).graph.exists id = true ∧
    (g.create_parents addr_lt id []).graph.parent_ids id = [] ∧
    (g.create_parents addr_lt id []).graph.child_ids id = [] ∧
    (∀ k, k ≠ id →
      map_find k (g.create_parents addr_lt id []).graph.nodes = map_find k g.nodes) := by
  have hid' : map_find id g.nodes = none := by
    simpa [VirusGenealogy.exists] using hid
  have heq : g.create_parents addr_lt id [] =
      Outcome.mk none (VirusGenealogy.mk (g.nodes ++ [(id, VirusNode.init id)]) g.stem_id) := by
    simp [VirusGenealogy.create_parents, hid', find_parents, map_insert]
  have hfind : map_find id (g.nodes ++ [(id, VirusNode.init id)]) = some (VirusNode.init id) := by
    rw [map_find_append_none id g.nodes _ hid']
    simp [map_find]
  rw [heq]
  refine ⟨rfl, ?_, ?_, ?_, ?_⟩
  · simp [VirusGenealogy.exists, hfind]
  · simp only [VirusGenealogy.parent_ids, hfind]
    rfl
  · simp only [VirusGenealogy.child_ids, hfind]
    rfl
  · intro k hk
    show map_find k (g.nodes ++ [(id, VirusNode.init id)]) = map_find k g.nodes
    cases hkn : map_find k g.nodes with
    | none =>
      rw [map_find_append_none k g.nodes _ hkn]
      simp [map_find, hk]
    | some n => exact map_find_append_some k g.nodes _ n hkn

/-- C20 witness: `create(3, [])` on the genealogy of scenario 3 makes a second
node without parents. -/
theorem create_empty_parent_list_witness :
    (g_diamond.create_parents addr_by_id 3 []).thrown = none ∧
    (g_diamond.create_parents addr_by_id 3 []).graph.exists 3 = true ∧
    (g_diamond.create_parents addr_by_id 3 []).graph.parent_ids 3 = [] :=
  ⟨congrArg Outcome.thrown (create_empty_parent_list addr_by_id g_diamond 3 (by decide)).1,
   (create_empty_parent_list addr_by_id g_diamond 3 (by decide)).2.1,
   (create_empty_parent_list addr_by_id g_diamond 3 (by decide)).2.2.1⟩

/-- C12: in every genealogy the constructor and a finite sequence of `create`
and `connect` calls yield, an id that occurs in the parent set or in the child
set of a node exists. -/
theorem no_dangling_reference (addr_lt : Virus Id → Virus Id → Bool) (s : Id)
    (calls : List (Call Id)) (a b : Id)
    (h : b ∈ (run addr_lt (VirusGenealogy.new s) calls).parent_ids a ∨
      b ∈ (run addr_lt (VirusGenealogy.new s) calls).child_ids a) :
    (run addr_lt (VirusGenealogy.new s) calls).exists b = true := by
  have hpar := parents_present_run addr_lt calls (VirusGenealogy.new s)
    (ptr_ok_new s) (parents_present_new s)
  have hch := child_after_run addr_lt calls (VirusGenealogy.new s) (child_after_new s)
  unfold VirusGenealogy.parent_ids VirusGenealogy.child_ids at h
  cases ha : map_find a (run addr_lt (VirusGenealogy.new s) calls).nodes with
  | none => simp [ha] at h
  | some n =>
    rw [ha] at h
    rcases h with h | h
    · obtain ⟨q, hq, hqb⟩ := List.mem_map.mp h
      rw [← hqb]
      exact hpar a n ha q hq
    · obtain ⟨c, hc, hcb⟩ := List.mem_map.mp h
      rw [← hcb]
      exact (map_find_isSome_iff _ _).mpr (hch a n ha c hc).1

/-- C12 witness: after `create(1, 0); create(2, [0, 1]); connect(1, 2)` the id
2 is in the parent set of 1, and it exists. -/
theorem no_dangling_reference_witness :
    (run addr_by_id (VirusGenealogy.new 0)
      [Call.create 1 0, Call.create_parents 2 [0, 1], Call.connect 1 2]).exists 2 = true :=
  no_dangling_reference addr_by_id 0
    [Call.create 1 0, Call.create_parents 2 [0, 1], Call.connect 1 2] 1 2 (Or.inl (by decide))

/-- C13 as amended: let the address order be a strict total order.  After the
constructor and any finite sequence of `create` and `connect` calls,
`get_parents` of an existing id returns the ids of the `Virus` objects in the
parent set of its node, without repetition and in ascending order of their
addresses; the sequence is the only address-ordered one with these elements,
so it does not depend on the order in which the parents were listed or
connected.  It need not be in id order: after `create(a, s)` and
`create(b, [s, a])` or `create(b, [a, s])`, `get_parents(b)` is `[s, a]` when
the `Virus` of `s` lies below the `Virus` of `a` and `[a, s]` otherwise. -/
theorem get_parents_address_ordered (addr_lt : Virus Id → Virus Id → Bool)
    (hirr : ∀ a, addr_lt a a = false)
    (htrans : ∀ a b c, addr_lt a b = true → addr_lt b c = true → addr_lt a c = true)
    (htotal : ∀ a b, a ≠ b → addr_lt a b = true ∨ addr_lt b a = true) :
    (∀ (s : Id) (calls : List (Call Id)) (id : Id),
      (run addr_lt (VirusGenealogy.new s) calls).exists id = true →
      ∃ node ps, map_find id (run addr_lt (VirusGenealogy.new s) calls).nodes = some node ∧
        ps = node.parents.map Virus.get_id ∧
        (run addr_lt (VirusGenealogy.new s) calls).get_parents id = Except.ok ps ∧
        (∀ q, q ∈ ps ↔ q ∈ (run addr_lt (VirusGenealogy.new s) calls).parent_ids id) ∧
        ps.Nodup ∧
        ps.Pairwise (fun a b => addr_lt (Virus.mk a) (Virus.mk b) = true) ∧
        (∀ l : List Id, l.Pairwise (fun a b => addr_lt (Virus.mk a) (Virus.mk b) = true) →
          (∀ q, q ∈ l ↔ q ∈ ps) → l = ps)) ∧
    (∀ s a b : Id, a ≠ s → b ≠ s → b ≠ a →
      (run addr_lt (VirusGenealogy.new s)
          [Call.create a s, Call.create_parents b [s, a]]).get_parents b =
        Except.ok (if addr_lt (Virus.mk s) (Virus.mk a) = true then [s, a] else [a, s]) ∧
      (run addr_lt (VirusGenealogy.new s)
          [Call.create a s, Call.create_parents b [a, s]]).get_parents b =
        Except.ok (if addr_lt (Virus.mk s) (Virus.mk a) = true then [s, a] else [a, s])) := by
  constructor
  · intro s calls id hex
    obtain ⟨n, hn⟩ := Option.isSome_iff_exists.mp hex
    have hsorted := parents_sorted_run addr_lt htrans htotal calls (VirusGenealogy.new s)
      (parents_sorted_new addr_lt s) id n hn
    have hps : (n.parents.map Virus.get_id).Pairwise
        (fun a b => addr_lt (Virus.mk a) (Virus.mk b) = true) := by
      rw [List.pairwise_map]
      exact hsorted.imp (fun h => h)
    have hnodup : ∀ l : List Id,
        l.Pairwise (fun a b => addr_lt (Virus.mk a) (Virus.mk b) = true) → l.Nodup := by
      intro l hl
      refine hl.imp ?_
      intro a b hab heq
      rw [heq, hirr] at hab
      cases hab
    refine ⟨n, n.parents.map Virus.get_id, hn, rfl, ?_, ?_, hnodup _ hps, hps, ?_⟩
    · simp [VirusGenealogy.get_parents, hn]
    · intro q
      simp [VirusGenealogy.parent_ids, hn]
    · intro l hl hmem
      have hperm : l.Perm (n.parents.map Virus.get_id) :=
        (List.perm_ext_iff_of_nodup (hnodup l hl) (hnodup _ hps)).mpr hmem
      refine List.Perm.eq_of_sorted ?_ hl hps hperm
      intro a b _ _ hab hba
      have haa := htrans _ _ _ hab hba
      rw [hirr] at haa
      cases haa
  · intro s a b has hbs hba
    have hsa : s ≠ a := fun h => has h.symm
    have hsb : s ≠ b := fun h => hbs h.symm
    have hab : a ≠ b := fun h => hba h.symm
    have hne : (Virus.mk s : Virus Id) ≠ Virus.mk a := by
      intro h
      exact hsa (congrArg Virus.get_id h)
    have hasym : addr_lt (Virus.mk s) (Virus.mk a) = true →
        addr_lt (Virus.mk a) (Virus.mk s) = false := by
      intro h
      cases h2 : addr_lt (Virus.mk a) (Virus.mk s)
      · rfl
      · have := htrans _ _ _ h h2
        rw [hirr] at this
        cases this
    have htot := htotal _ _ hne
    constructor
    · simp [run, Call.apply, VirusGenealogy.create, VirusGenealogy.create_parents,
        VirusGenealogy.new, map_find, map_insert, add_parent, map_modify, find_parents,
        VirusNode.init, VirusNode.insert_child, VirusNode.insert_parent, set_insert,
        ordered_insert, VirusGenealogy.get_parents, has, hbs, hba, hsa, hsb, hab]
      cases h1 : addr_lt (Virus.mk s) (Virus.mk a) <;>
        cases h2 : addr_lt (Virus.mk a) (Virus.mk s) <;> simp_all
    · simp [run, Call.apply, VirusGenealogy.create, VirusGenealogy.create_parents,
        VirusGenealogy.new, map_find, map_insert, add_parent, map_modify, find_parents,
        VirusNode.init, VirusNode.insert_child, VirusNode.insert_parent, set_insert,
        ordered_insert, VirusGenealogy.get_parents, has, hbs, hba, hsa, hsb, hab]
      cases h1 : addr_lt (Virus.mk s) (Virus.mk a) <;>
        cases h2 : addr_lt (Virus.mk a) (Virus.mk s) <;> simp_all

/-- C13 witness: stem 0, `create(1, 0)`, then `create(2, [0, 1])` or
`create(2, [1, 0])`.  With the `Virus` objects in id order `get_parents(2)` is
`[0, 1]` for both listings; with the objects in reverse id order it is `[1, 0]`
for both. -/
theorem get_parents_address_ordered_witness :
    (run addr_by_id (VirusGenealogy.new 0)
      [Call.create 1 0, Call.create_parents 2 [0, 1]]).get_parents 2 = Except.ok [0, 1] ∧
    (run addr_by_id (VirusGenealogy.new 0)
      [Call.create 1 0, Call.create_parents 2 [1, 0]]).get_parents 2 = Except.ok [0, 1] ∧
    (run addr_by_id_rev (VirusGenealogy.new 0)
      [Call.create 1 0, Call.create_parents 2 [0, 1]]).get_parents 2 = Except.ok [1, 0] ∧
    (run addr_by_id_rev (VirusGenealogy.new 0)
      [Call.create 1 0, Call.create_parents 2 [1, 0]]).get_parents 2 = Except.ok [1, 0] ∧
    (∃ node ps, map_find 2 (run addr_by_id (VirusGenealogy.new 0)
        [Call.create 1 0, Call.create_parents 2 [1, 0]]).nodes = some node ∧
      ps = node.parents.map Virus.get_id ∧
      (run addr_by_id (VirusGenealogy.new 0)
        [Call.create 1 0, Call.create_parents 2 [1, 0]]).get_parents 2 = Except.ok ps ∧
      ps.Nodup ∧ ps.Pairwise (fun a b => addr_by_id (Virus.mk a) (Virus.mk b) = true)) := by
  have hfwd := get_parents_address_ordered addr_by_id
    (by intro a; simp [addr_by_id])
    (by intro a b c; simp only [addr_by_id, decide_eq_true_eq]; omega)
    (by
      intro a b hab
      simp only [addr_by_id, decide_eq_true_eq]
      have hne : a.get_id ≠ b.get_id := by
        intro h
        apply hab
        cases a
        cases b
        simpa using h
      omega)
  have hrev := get_parents_address_ordered addr_by_id_rev
    (by intro a; simp [addr_by_id_rev])
    (by intro a b c; simp only [addr_by_id_rev, decide_eq_true_eq]; omega)
    (by
      intro a b hab
      simp only [addr_by_id_rev, decide_eq_true_eq]
      have hne : a.get_id ≠ b.get_id := by
        intro h
        apply hab
        cases a
        cases b
        simpa using h
      omega)
  obtain ⟨node, ps, h1, h2, h3, _, h5, h6, _⟩ :=
    hfwd.1 0 [Call.create 1 0, Call.create_parents 2 [1, 0]] 2 (by decide)
  exact ⟨(hfwd.2 0 1 2 (by decide) (by decide) (by decide)).1,
    (hfwd.2 0 1 2 (by decide) (by decide) (by decide)).2,
    (hrev.2 0 1 2 (by decide) (by decide) (by decide)).1,
    (hrev.2 0 1 2 (by decide) (by decide) (by decide)).2,
    node, ps, h1, h2, h3, h5, h6⟩

/-- C17: in a genealogy that holds its stem, `remove` of the stem id fails with
`ForbiddenRemoval` and `remove` of an absent id fails with `NotFound`; both
leave the genealogy as it was. -/
theorem remove_protects_stem (g : VirusGenealogy Id)
    (hstem : g.exists g.get_stem_id = true) :
    g.remove g.get_stem_id =
      RemoveOutcome.mk (some RemoveError.ForbiddenRemoval) g ∧
    (∀ id, g.exists id = false → g.remove id = RemoveOutcome.mk (some RemoveError.NotFound) g) := by
  constructor
  · obtain ⟨n, hn⟩ := Option.isSome_iff_exists.mp hstem
    have hn' : map_find g.stem_id g.nodes = some n := hn
    simp [VirusGenealogy.remove, VirusGenealogy.get_stem_id, hn']
  · intro id hid
    have hid' : map_find id g.nodes = none := by
      simpa [VirusGenealogy.exists] using hid
    simp [VirusGenealogy.remove, hid']

/-- C17 witness: scenario 8, `remove(0)` on the genealogy of scenario 3, and
`remove(5)` of an absent id. -/
theorem remove_protects_stem_witness :
    g_diamond.remove 0 = RemoveOutcome.mk (some RemoveError.ForbiddenRemoval) g_diamond ∧
    g_diamond.remove 5 = RemoveOutcome.mk (some RemoveError.NotFound) g_diamond :=
  ⟨(remove_protects_stem g_diamond (by decide)).1,
   (remove_protects_stem g_diamond (by decide)).2 5 (by decide)⟩

/-- C18: on a reachable genealogy, `connect` of two existing ids returns
normally; afterwards the parent set of `child_id` is the old one with
`parent_id` added, while the existing ids, the child set of every node
(that of `parent_id` included) and the parent set of every other node are as
before. -/
theorem connect_writes_only_parent_set (addr_lt : Virus Id → Virus Id → Bool)
    (g : VirusGenealogy Id) (hg : Reachable addr_lt g) (child_id parent_id : Id)
    (hc : g.exists child_id = true) (hp : g.exists parent_id = true) :
    (g.connect addr_lt child_id parent_id).thrown = none ∧
    (∀ q, q ∈ (g.connect addr_lt child_id parent_id).graph.parent_ids child_id ↔
      q = parent_id ∨ q ∈ g.parent_ids child_id) ∧
    (∀ a, (g.connect addr_lt child_id parent_id).graph.exists a = g.exists a) ∧
    (∀ a, (g.connect addr_lt child_id parent_id).graph.child_ids a = g.child_ids a) ∧
    (∀ a, a ≠ child_id →
      (g.connect addr_lt child_id parent_id).graph.parent_ids a = g.parent_ids a) := by
  have hok := ptr_ok_reachable addr_lt g hg
  rcases connect_cases addr_lt g child_id parent_id with ⟨habs, _⟩ | ⟨child, parent, hch, hpa, heq⟩
  · exfalso
    have hc' : (map_find child_id g.nodes).isSome = true := hc
    have hp' : (map_find parent_id g.nodes).isSome = true := hp
    rcases habs with h | h
    · rw [hc'] at h
      cases h
    · rw [hp'] at h
      cases h
  · rw [heq]
    have hfind : ∀ a, map_find a
        (map_modify child_id (VirusNode.insert_parent addr_lt parent.ptr) g.nodes) =
        if a = child_id then (map_find a g.nodes).map (VirusNode.insert_parent addr_lt parent.ptr)
        else map_find a g.nodes := fun a => map_find_modify a child_id _ g.nodes
    refine ⟨rfl, ?_, ?_, ?_, ?_⟩
    · intro q
      simp only [VirusGenealogy.parent_ids, hfind, if_true, hch, Option.map_some']
      simp only [VirusNode.insert_parent, List.mem_map, mem_set_insert, hok parent_id parent hpa]
      constructor
      · rintro ⟨v, hv | hv, rfl⟩
        · exact Or.inl (by rw [hv])
        · exact Or.inr ⟨v, hv, rfl⟩
      · rintro (hq | ⟨v, hv, rfl⟩)
        · exact ⟨Virus.mk parent_id, Or.inl rfl, hq.symm⟩
        · exact ⟨v, Or.inr hv, rfl⟩
    · intro a
      simp only [VirusGenealogy.exists, hfind]
      by_cases hac : a = child_id
      · simp [hac]
      · simp [hac]
    · intro a
      simp only [VirusGenealogy.child_ids, hfind]
      by_cases hac : a = child_id
      · subst hac
        simp [hch, VirusNode.insert_parent]
      · simp [hac]
    · intro a hac
      simp only [VirusGenealogy.parent_ids, hfind, if_neg hac]

/-- C18 witness: `connect(2, 1)` on the genealogy with edges 0 → 1 and 0 → 2:
the child set of 1 is what it was. -/
theorem connect_writes_only_parent_set_witness :
    (g_fork.connect addr_by_id 2 1).thrown = none ∧
    (g_fork.connect addr_by_id 2 1).graph.child_ids 1 = g_fork.child_ids 1 :=
  ⟨(connect_writes_only_parent_set addr_by_id g_fork
      ⟨0, [Call.create 1 0, Call.create 2 0], rfl⟩ 2 1 (by decide) (by decide)).1,
   (connect_writes_only_parent_set addr_by_id g_fork
      ⟨0, [Call.create 1 0, Call.create 2 0], rfl⟩ 2 1 (by decide) (by decide)).2.2.2.1 1⟩

end Claims

/-! ## Claims settled on concrete genealogies -/

/-- C1 (the code breaks it): after `create(1, 0); create(2, 0); connect(2, 1)`
the ids 1 and 2 exist and 1 is in the parent set of 2, yet 2 is not in the
child set of 1: `connect` wrote the child set of a copy of node 1. -/
theorem connect_breaks_symmetry :
    g_fork_connected.exists 1 = true ∧ g_fork_connected.exists 2 = true ∧
    1 ∈ g_fork_connected.parent_ids 2 ∧ 2 ∉ g_fork_connected.child_ids 1 := by
  decide

/-- C5 (the code breaks it): on the genealogy with nodes 0, 1, 2 and edges
0 → 1, 0 → 2, the call `connect(2, 1)` returns normally and puts 1 into the
parent set of 2, but the child set of 1 stays empty. -/
theorem connect_leaves_child_set :
    g_fork.exists 2 = true ∧ g_fork.exists 1 = true ∧
    (g_fork.connect addr_by_id 2 1).thrown = none ∧
    1 ∈ (g_fork.connect addr_by_id 2 1).graph.parent_ids 2 ∧
    2 ∉ (g_fork.connect addr_by_id 2 1).graph.child_ids 1 ∧
    (g_fork.connect addr_by_id 2 1).graph.child_ids 1 = [] := by
  decide

/-- C6 (the code breaks it): with an absent child, an absent parent, or both,
`connect` throws `VirusAlreadyCreated`, not `VirusNotFound`. -/
theorem connect_absent_throws_already_created :
    ((VirusGenealogy.new 0).connect addr_by_id 1 0).thrown = some Exception.VirusAlreadyCreated ∧
    ((VirusGenealogy.new 0).connect addr_by_id 0 1).thrown = some Exception.VirusAlreadyCreated ∧
    ((VirusGenealogy.new 0).connect addr_by_id 1 2).thrown = some Exception.VirusAlreadyCreated ∧
    ((VirusGenealogy.new 0).connect addr_by_id 1 0).thrown ≠ some Exception.VirusNotFound := by
  decide

/-- C7 fails as stated: on the genealogy 0 → 1 both ids exist and 1 is
reachable from 0 by a child edge, yet `connect(0, 1)` returns normally and
changes the genealogy. -/
theorem connect_cycle_not_rejected :
    g_chain.exists 0 = true ∧ g_chain.exists 1 = true ∧
    Relation.ReflTransGen g_chain.child_edge 0 1 ∧
    (g_chain.connect addr_by_id 0 1).thrown = none ∧
    (g_chain.connect addr_by_id 0 1).graph ≠ g_chain ∧
    (g_chain.connect addr_by_id 0 1).graph.parent_ids 0 = [1] := by
  refine ⟨by decide, by decide, ?_, by decide, by decide, by decide⟩
  apply Relation.ReflTransGen.single
  show 1 ∈ g_chain.child_ids 0
  decide

/-- C13 fails as stated: when the `Virus` of 1 lies at a lower address than
the `Virus` of 0, `create(1, 0); create(2, [0, 1])` makes `get_parents(2)`
return `[1, 0]`, which is not in ascending id order. -/
theorem get_parents_not_id_ordered :
    g_diamond_rev.exists 2 = true ∧
    g_diamond_rev.get_parents 2 = Except.ok [1, 0] ∧
    g_diamond_rev.get_parents 2 ≠ Except.ok [0, 1] := by
  have h : g_diamond_rev.get_parents 2 = Except.ok [1, 0] := rfl
  refine ⟨by decide, h, ?_⟩
  rw [h]
  intro hne
  cases hne

end VG
